import Mathlib

/-!
Verification of the tag-store / process-bridge logic of `metaflac_gui.py`
(a Tkinter front-end to the `metaflac` command-line tool).

The embedding models Python string primitives (`str.strip`, `str.upper`,
`str.lower`, `str.split('\n')`, `str.split('=', 1)`, `in`) over `List Char`
(Lean `String` is a wrapper around `List Char`), the in-memory tag set
(`TagSet`), the subprocess invocations issued by the GUI callbacks
(`Invocation`), and the sequential check=True execution with early abort
(`execInvs`).
-/

namespace MetaflacGui

/-- The ASCII whitespace characters stripped by Python's `str.strip()`
(tag keys and values in play are ASCII; non-ASCII Unicode whitespace is out
of scope of this embedding). -/
def isPyWS (c : Char) : Bool :=
  c = ' ' || c = '\t' || c = '\n' || c = '\r' || c = '\x0b' || c = '\x0c'

/-- Remove trailing Python whitespace from a character list. -/
def rstripL (l : List Char) : List Char :=
  (l.reverse.dropWhile isPyWS).reverse

/-- Remove leading and trailing Python whitespace: `str.strip()`. -/
def stripL (l : List Char) : List Char :=
  (rstripL l).dropWhile isPyWS

/-- Python `str.strip()` on strings. -/
def pyStrip (s : String) : String := ⟨stripL s.data⟩

/-- Python `str.upper()` (ASCII casing, as all keys in play are ASCII). -/
def pyUpper (s : String) : String := ⟨s.data.map Char.toUpper⟩

/-- Python `str.lower()` (ASCII casing). -/
def pyLower (s : String) : String := ⟨s.data.map Char.toLower⟩

/-- Python `'=' in line`. -/
def containsEqL (l : List Char) : Bool := l.any (fun c => c = '=')

/-- Python `'=' in line` on strings. -/
def containsEq (s : String) : Bool := containsEqL s.data

/-- Python `line.split('=', 1)`: split at the first `'='`; if there is no
`'='` the second component is empty and the first is the whole list. -/
def splitEqL : List Char → List Char × List Char
  | [] => ([], [])
  | c :: cs =>
    if c = '=' then ([], cs)
    else
      let r := splitEqL cs
      (c :: r.1, r.2)

/-- Key part of `line.split('=', 1)`. -/
def keyOf (s : String) : String := ⟨(splitEqL s.data).1⟩

/-- Value part of `line.split('=', 1)`. -/
def valOf (s : String) : String := ⟨(splitEqL s.data).2⟩

/-- Python `text.split('\n')` over character lists: always returns at least
one (possibly empty) line; a `'\n'` separates lines. -/
def splitNlL : List Char → List (List Char)
  | [] => [[]]
  | c :: cs =>
    if c = '\n' then [] :: splitNlL cs
    else (splitNlL cs).modifyHead (fun l => c :: l)

/-- Python `text.split('\n')` on strings. -/
def splitNl (s : String) : List String := (splitNlL s.data).map (fun l => ⟨l⟩)

/-- Python `'\n'.join(lines)` over character lists. -/
def joinNlL : List (List Char) → List Char
  | [] => []
  | [l] => l
  | l :: l' :: ls => l ++ '\n' :: joinNlL (l' :: ls)

/-- Python `'\n'.join(lines)` on strings. -/
def joinNl (ls : List String) : String := ⟨joinNlL (ls.map String.data)⟩

/-- Python `s.lower().endswith(suffix)` building block: list suffix test. -/
def pyEndsWith (s suffix : String) : Bool := suffix.data.isSuffixOf s.data

/-- The fixed ordered list of the 19 well-known fields shown by the GUI
(`self.common_tags` in `MetaFLACGUI.__init__`). -/
def common_tags : List String :=
  ["BPM", "GENRE", "TITLE", "ARTIST", "ALBUM", "DATE", "TRACKNUMBER",
   "ALBUMARTIST", "COMPOSER", "PERFORMER", "CONDUCTOR", "COMMENT",
   "DISCNUMBER", "TOTALTRACKS", "TOTALDISCS", "MUSICBRAINZ_TRACKID",
   "MUSICBRAINZ_ALBUMID", "MUSICBRAINZ_ARTISTID", "ISRC"]

/-- The in-memory tag set: the well-known entry widgets (an insertion-ordered
mapping, as a Python dict; its key sequence is `common_tags` in the real
application) and the lines of the custom-tags text area. -/
structure TagSet where
  wellKnown : List (String × String)
  custom : List String
deriving DecidableEq, Repr

/-- Python `key in self.tag_entries`. -/
def hasField (wk : List (String × String)) (k : String) : Bool :=
  wk.any (fun p => p.1 = k)

/-- Overwrite the entry widget for key `k` with value `v`
(`self.tag_entries[key].delete(...); insert(0, value)`). -/
def setField (wk : List (String × String)) (k v : String) : List (String × String) :=
  wk.map (fun p => if p.1 = k then (p.1, v) else p)

/-- Current content of the entry widget for key `k` (empty if absent). -/
def getField (wk : List (String × String)) (k : String) : String :=
  ((wk.find? (fun p => p.1 = k)).map Prod.snd).getD ""

/-- The well-known mapping with every entry empty, keyed by `common_tags`. -/
def emptyWK : List (String × String) := common_tags.map (fun t => (t, ""))

/-- The tag set corresponding to a fully cleared form. -/
def emptyTagSet : TagSet := ⟨emptyWK, []⟩

/-- Effect of `clear_form` on a tag set: every entry widget is emptied and
the custom text area is cleared. -/
def clear_form (ts : TagSet) : TagSet :=
  ⟨ts.wellKnown.map (fun p => (p.1, "")), []⟩

/-- One processing step of the parse loop in `load_tags`: a line containing
`'='` is split at the first `'='`, the key uppercased; a well-known key
overwrites that entry widget, any other line is appended verbatim to the
custom list; a line without `'='` is ignored. -/
def parseLine (acc : List (String × String) × List String) (line : String) :
    List (String × String) × List String :=
  if containsEq line then
    let k := pyUpper (keyOf line)
    if hasField acc.1 k then (setField acc.1 k (valOf line), acc.2)
    else (acc.1, acc.2 ++ [line])
  else acc

/-- The parsing part of `load_tags`: iterate over
`result.stdout.strip().split('\n')`, starting from the (just cleared) entry
widgets `wk0` and an empty custom list. -/
def load_parse (stdout : String) (wk0 : List (String × String)) : TagSet :=
  let r := (splitNl (pyStrip stdout)).foldl parseLine (wk0, [])
  ⟨r.1, r.2⟩

/-- A subprocess invocation of the external `metaflac` tool, identified by
its argument shape. -/
inductive Invocation where
  | versionProbe : Invocation
  | exportTags (path : String) : Invocation
  | removeAllTags (path : String) : Invocation
  | setTag (path : String) (arg : String) : Invocation
  | listBlock (path : String) : Invocation
deriving DecidableEq, Repr

/-- Whether an invocation mutates the FLAC file. -/
def Invocation.mutating : Invocation → Bool
  | .removeAllTags _ => true
  | .setTag _ _ => true
  | _ => false

/-- Model of the on-disk tag state of the FLAC file: the stored `KEY=VALUE`
strings in storage order (`metaflac --set-tag` appends; it does not dedupe). -/
def applyInv (st : List String) : Invocation → List String
  | .removeAllTags _ => []
  | .setTag _ arg => st ++ [arg]
  | _ => st

/-- Effect of a successful invocation list on the file state. -/
def applyInvs (st : List String) (invs : List Invocation) : List String :=
  invs.foldl applyInv st

/-- The export text `metaflac --export-tags-to=-` produces from a file
state: one stored tag per line. -/
def exportText (st : List String) : String := joinNl st

/-- Run a list of `check=True` subprocess invocations in order: a failing
invocation raises, so later invocations are not launched.  Returns the
resulting file state, the invocations actually launched (the failing one
included), and whether all succeeded. -/
def execInvs (succeeds : Invocation → Bool) (st : List String) :
    List Invocation → List String × List Invocation × Bool
  | [] => (st, [], true)
  | i :: rest =>
    if succeeds i then
      let r := execInvs succeeds (applyInv st i) rest
      (r.1, i :: r.2.1, r.2.2)
    else (st, [i], false)

/-- Set-tag payloads produced by the well-known entry loop of `save_tags`:
for each entry, `value = entry.get().strip()`, and a set-tag invocation with
payload `f'{tag}={value}'` is issued exactly when `value` is non-empty. -/
def wellKnownArgs (wk : List (String × String)) : List String :=
  wk.filterMap (fun p =>
    let v := pyStrip p.2
    if v ≠ "" then some (p.1 ++ "=" ++ v) else none)

/-- Keep a custom line exactly when its stripped form is non-empty and
contains `'='`; the stripped form is what gets written
(`line = line.strip(); if line and '=' in line`). -/
def keepLine (l : List Char) : Option (List Char) :=
  let l' := stripL l
  if l' ≠ [] ∧ containsEqL l' = true then some l' else none

/-- Set-tag payloads produced by the custom-tags loop of `save_tags`:
the text area content is stripped as a whole, split on newlines, and each
line stripped and kept when it still contains `'='`. -/
def customArgs (custom : List String) : List String :=
  let ct := pyStrip (joinNl custom)
  if ct = "" then []
  else ((splitNlL ct.data).filterMap keepLine).map (fun l => (⟨l⟩ : String))

/-- All set-tag payloads of one save, in issue order. -/
def saveArgs (ts : TagSet) : List String :=
  wellKnownArgs ts.wellKnown ++ customArgs ts.custom

/-- The full invocation plan of one save: remove-all-tags first, then one
set-tag invocation per payload. -/
def savePlan (path : String) (ts : TagSet) : List Invocation :=
  Invocation.removeAllTags path :: (saveArgs ts).map (Invocation.setTag path)

/-- Outcome of the `metaflac --version` availability probe. -/
inductive ProbeResult where
  | notFound : ProbeResult
  | exited (code : Nat) : ProbeResult
deriving DecidableEq, Repr

/-- The availability check `check_metaflac`: `subprocess.run` with
`check=True` raises `CalledProcessError` on a non-zero exit and
`FileNotFoundError` when the executable is absent; both are caught and
reported as unavailable. -/
def check_metaflac : ProbeResult → Bool
  | .exited 0 => true
  | _ => false

/-- User-visible outcome of a GUI operation. -/
inductive OpOutcome where
  | warnedNoFile : OpOutcome
  | unavailable : OpOutcome
  | cancelled : OpOutcome
  | errored : OpOutcome
  | done : OpOutcome
deriving DecidableEq, Repr

/-- Result of a `save_tags` run: launched subprocesses in order, resulting
file state, and outcome. The form and tag set are not modified by a save. -/
structure SaveRun where
  launched : List Invocation
  fileState : List String
  outcome : OpOutcome
deriving DecidableEq, Repr

/-- The `save_tags` callback: warn if no file is selected; abort if
`check_metaflac` fails; otherwise run remove-all-tags followed by the
set-tag invocations, aborting at the first failure. -/
def save_tags (file? : Option String) (probe : ProbeResult) (ts : TagSet)
    (succeeds : Invocation → Bool) (st : List String) : SaveRun :=
  match file? with
  | none => ⟨[], st, .warnedNoFile⟩
  | some path =>
    if check_metaflac probe then
      let r := execInvs succeeds st (savePlan path ts)
      ⟨Invocation.versionProbe :: r.2.1, r.1, if r.2.2 then .done else .errored⟩
    else ⟨[Invocation.versionProbe], st, .unavailable⟩

/-- The `save_tags_and_exit` callback: identical guard and invocation
sequence to `save_tags` (the code is duplicated in the source); only the
success path differs (it quits the application instead of showing a
confirmation). -/
def save_tags_and_exit (file? : Option String) (probe : ProbeResult) (ts : TagSet)
    (succeeds : Invocation → Bool) (st : List String) : SaveRun :=
  match file? with
  | none => ⟨[], st, .warnedNoFile⟩
  | some path =>
    if check_metaflac probe then
      let r := execInvs succeeds st (savePlan path ts)
      ⟨Invocation.versionProbe :: r.2.1, r.1, if r.2.2 then .done else .errored⟩
    else ⟨[Invocation.versionProbe], st, .unavailable⟩

/-- Result of a `remove_all_tags` run. -/
structure RemoveRun where
  launched : List Invocation
  fileState : List String
  tagSet : TagSet
  outcome : OpOutcome
deriving DecidableEq, Repr

/-- The `remove_all_tags` callback: warn if no file is selected; a
confirmation dialog; abort if `check_metaflac` fails; then a single
remove-all-tags invocation, followed on success by `clear_form`. -/
def remove_all_tags (file? : Option String) (confirmed : Bool)
    (probe : ProbeResult) (ts : TagSet) (succeeds : Invocation → Bool)
    (st : List String) : RemoveRun :=
  match file? with
  | none => ⟨[], st, ts, .warnedNoFile⟩
  | some path =>
    if !confirmed then ⟨[], st, ts, .cancelled⟩
    else if check_metaflac probe then
      if succeeds (Invocation.removeAllTags path) then
        ⟨[Invocation.versionProbe, Invocation.removeAllTags path], [],
         clear_form ts, .done⟩
      else
        ⟨[Invocation.versionProbe, Invocation.removeAllTags path], st, ts, .errored⟩
    else ⟨[Invocation.versionProbe], st, ts, .unavailable⟩

/-- Ordered observable events of a `load_tags` run. -/
inductive LoadEvent where
  | probed : LoadEvent
  | clearedForm : LoadEvent
  | launchedExport : LoadEvent
  | showedError : LoadEvent
deriving DecidableEq, Repr

/-- Outcome of the export invocation inside `load_tags`. -/
inductive ExportOutcome where
  | failure : ExportOutcome
  | success (stdout : String) : ExportOutcome
deriving DecidableEq, Repr

/-- The `load_tags` callback: warn if no file is selected; abort if
`check_metaflac` fails; otherwise `clear_form` runs first, then the export
subprocess is launched; on failure an error dialog is shown and the form
stays cleared; on success the captured text is parsed into the form. -/
def load_tags (file? : Option String) (probe : ProbeResult) (ts : TagSet)
    (exportRes : ExportOutcome) : TagSet × List LoadEvent × OpOutcome :=
  match file? with
  | none => (ts, [], .warnedNoFile)
  | some _ =>
    if check_metaflac probe then
      match exportRes with
      | .failure =>
        (clear_form ts, [.probed, .clearedForm, .launchedExport, .showedError],
         .errored)
      | .success out =>
        (load_parse out (clear_form ts).wellKnown,
         [.probed, .clearedForm, .launchedExport], .done)
    else (ts, [.probed], .unavailable)

/-- Where a startup error message is written. -/
inductive OutStream where
  | stdout : OutStream
  | stderr : OutStream
deriving DecidableEq, Repr

/-- Observable outcome of program startup. -/
inductive StartupOutcome where
  | windowOpened (initialFile : Option String) : StartupOutcome
  | exited (code : Nat) (stream : OutStream) (msg : String) : StartupOutcome
deriving DecidableEq, Repr

/-- The CLI file-argument validation in `main`: the guard `if args.file:`
uses Python truthiness, so an absent argument and the empty-string argument
both skip validation and open the window with no file; a non-empty argument
is accepted (made absolute) when the path exists and
`args.file.lower().endswith('.flac')`; otherwise `print(...)` writes the
error to standard output and `sys.exit(1)` terminates before `tk.Tk()`
creates any window. -/
def main_startup (fileArg : Option String) (pathExists : String → Bool)
    (abspath : String → String) : StartupOutcome :=
  match fileArg with
  | none => .windowOpened none
  | some f =>
    if f = "" then .windowOpened none
    else if pathExists f && pyEndsWith (pyLower f) ".flac" then
      .windowOpened (some (abspath f))
    else
      .exited 1 .stdout
        ("Error: File '" ++ f ++ "' does not exist or is not a FLAC file.")

/-- The uppercased key of a tag line, `line.split('=', 1)[0].upper()`. -/
def upKeyOf (l : String) : String := pyUpper (keyOf l)

/-- The last line of `lines` whose uppercased key equals `f` (and which
contains an equals sign), if any: the "later duplicate keys overwrite
earlier ones" winner. -/
def lastMatchLine (f : String) (lines : List String) : Option String :=
  lines.reverse.find? (fun l => containsEq l && (upKeyOf l == f))

/-- Modelled from the spec: the Load parsing step as the spec states it
(claim C2), processing the export text line by line with no preliminary
whole-text strip.  Used only to compare against `load_parse`, which embeds
the source. -/
def load_parse_claimed (stdout : String) (wk0 : List (String × String)) : TagSet :=
  let r := (splitNl stdout).foldl parseLine (wk0, [])
  ⟨r.1, r.2⟩

/-- Process the custom text area content the way `save_tags` does after the
whole-text strip: split on newlines, keep each line's stripped form when it
still contains an equals sign. -/
def procL (s : List Char) : List (List Char) :=
  (splitNlL s).filterMap keepLine

/-- Apply a function to the last element of a list of lines. -/
def modLast (f : List Char → List Char) : List (List Char) → List (List Char)
  | [] => []
  | [l] => [f l]
  | l :: l' :: ls => l :: modLast f (l' :: ls)

/-- Two tag sets are equal when their components are. -/
theorem TagSet.ext {a b : TagSet} (h1 : a.wellKnown = b.wellKnown)
    (h2 : a.custom = b.custom) : a = b := by
  cases a
  cases b
  cases h1
  cases h2
  rfl

/-! ### Lemmas about Python `strip` -/

theorem dropWhile_head_not_ws {l : List Char} {c : Char}
    (h : (l.dropWhile isPyWS).head? = some c) : isPyWS c = false := by
  induction l with
  | nil => simp [List.dropWhile] at h
  | cons a t ih =>
    rw [List.dropWhile_cons] at h
    by_cases ha : isPyWS a = true
    · exact ih (by simpa [ha] using h)
    · simp only [ha] at h
      simp only [List.head?] at h
      cases h
      simpa using ha

theorem dropWhile_eq_self_of_head {l : List Char}
    (h : ∀ c, l.head? = some c → isPyWS c = false) :
    l.dropWhile isPyWS = l := by
  cases l with
  | nil => rfl
  | cons a t => rw [List.dropWhile_cons]; simp [h a rfl]

theorem dropWhile_ws_idem (l : List Char) :
    (l.dropWhile isPyWS).dropWhile isPyWS = l.dropWhile isPyWS :=
  dropWhile_eq_self_of_head (fun _ hc => dropWhile_head_not_ws hc)

theorem rstripL_getLast_not_ws {l : List Char} {c : Char}
    (h : (rstripL l).getLast? = some c) : isPyWS c = false := by
  unfold rstripL at h
  rw [List.getLast?_reverse] at h
  exact dropWhile_head_not_ws h

theorem rstripL_eq_self_of_getLast {l : List Char}
    (h : ∀ c, l.getLast? = some c → isPyWS c = false) : rstripL l = l := by
  unfold rstripL
  rw [dropWhile_eq_self_of_head, List.reverse_reverse]
  intro c hc
  rw [List.head?_reverse] at hc
  exact h c hc

theorem stripL_eq_self_of_ends {l : List Char}
    (h1 : ∀ c, l.head? = some c → isPyWS c = false)
    (h2 : ∀ c, l.getLast? = some c → isPyWS c = false) : stripL l = l := by
  unfold stripL
  rw [rstripL_eq_self_of_getLast h2]
  exact dropWhile_eq_self_of_head h1

theorem stripL_head_not_ws {l : List Char} {c : Char}
    (h : (stripL l).head? = some c) : isPyWS c = false :=
  dropWhile_head_not_ws h

theorem stripL_getLast_not_ws {l : List Char} {c : Char}
    (h : (stripL l).getLast? = some c) : isPyWS c = false := by
  unfold stripL at h
  rcases hsfx : List.dropWhile isPyWS (rstripL l) with _ | ⟨a, t⟩
  · rw [hsfx] at h; simp at h
  · have hsub : (rstripL l).dropWhile isPyWS <:+ rstripL l :=
      List.dropWhile_suffix isPyWS
    rcases hsub with ⟨pre, hpre⟩
    rw [hsfx] at h hpre
    have : (rstripL l).getLast? = some c := by
      rw [← hpre, List.getLast?_append]
      rw [h]
      rfl
    exact rstripL_getLast_not_ws this

theorem stripL_idem (l : List Char) : stripL (stripL l) = stripL l := by
  apply stripL_eq_self_of_ends
  · intro c hc; exact stripL_head_not_ws hc
  · intro c hc; exact stripL_getLast_not_ws hc

theorem stripL_ws_cons {c : Char} (hc : isPyWS c = true) (l : List Char) :
    stripL (c :: l) = stripL l := by
  unfold stripL rstripL
  rw [List.reverse_cons, List.dropWhile_append]
  by_cases hr : (l.reverse.dropWhile isPyWS).isEmpty = true
  · rw [if_pos hr]
    rw [List.isEmpty_iff] at hr
    rw [hr]
    simp [List.dropWhile, hc]
  · rw [if_neg hr]
    rw [List.reverse_append]
    simp only [List.reverse_cons, List.reverse_nil, List.nil_append,
      List.singleton_append]
    rw [List.dropWhile_cons]
    simp [hc]

theorem stripL_ws_append {c : Char} (hc : isPyWS c = true) (l : List Char) :
    stripL (l ++ [c]) = stripL l := by
  unfold stripL rstripL
  rw [List.reverse_append]
  simp only [List.reverse_cons, List.reverse_nil, List.nil_append,
    List.singleton_append]
  rw [List.dropWhile_cons]
  simp [hc]

theorem mem_stripL {c : Char} {l : List Char} (h : c ∈ stripL l) : c ∈ l := by
  unfold stripL rstripL at h
  have h1 := (List.dropWhile_sublist isPyWS).mem h
  rw [List.mem_reverse] at h1
  have h2 := (List.dropWhile_sublist isPyWS).mem h1
  rwa [List.mem_reverse] at h2

/-! ### Lemmas about newline splitting and joining -/

theorem splitNlL_ne_nil (s : List Char) : splitNlL s ≠ [] := by
  induction s with
  | nil => simp [splitNlL]
  | cons c cs ih =>
    rw [splitNlL]
    by_cases hc : c = '\n'
    · simp [hc]
    · rw [if_neg hc]
      rcases h : splitNlL cs with _ | ⟨a, t⟩
      · exact absurd h ih
      · simp [List.modifyHead_cons]

theorem splitNlL_no_nl (s : List Char) :
    ∀ l ∈ splitNlL s, '\n' ∉ l := by
  induction s with
  | nil =>
    intro l hl
    simp [splitNlL] at hl
    simp [hl]
  | cons c cs ih =>
    intro l hl
    rw [splitNlL] at hl
    by_cases hc : c = '\n'
    · rw [if_pos hc] at hl
      rcases List.mem_cons.mp hl with hl | hl
      · simp [hl]
      · exact ih l hl
    · rw [if_neg hc] at hl
      rcases hsplit : splitNlL cs with _ | ⟨a, t⟩
      · exact absurd hsplit (splitNlL_ne_nil cs)
      · rw [hsplit, List.modifyHead_cons] at hl
        rcases List.mem_cons.mp hl with hl | hl
        · subst hl
          intro hmem
          rcases List.mem_cons.mp hmem with hmem | hmem
          · exact hc hmem.symm
          · exact ih a (by rw [hsplit]; exact List.mem_cons_self a t) hmem
        · exact ih l (by rw [hsplit]; exact List.mem_cons_of_mem a hl)

theorem splitNlL_of_no_nl {s : List Char} (h : '\n' ∉ s) :
    splitNlL s = [s] := by
  induction s with
  | nil => rfl
  | cons c cs ih =>
    rw [splitNlL, if_neg (by intro hc; exact h (by simp [hc]))]
    rw [ih (fun hm => h (List.mem_cons_of_mem c hm)), List.modifyHead_cons]

theorem splitNlL_append_nl_cons {a : List Char} (b : List Char)
    (h : '\n' ∉ a) : splitNlL (a ++ '\n' :: b) = a :: splitNlL b := by
  induction a with
  | nil => simp [splitNlL]
  | cons c cs ih =>
    have hc : c ≠ '\n' := by intro hc; exact h (by simp [hc])
    rw [List.cons_append, splitNlL, if_neg hc,
      ih (fun hm => h (List.mem_cons_of_mem c hm)), List.modifyHead_cons]

theorem splitNlL_join {ls : List (List Char)} (hne : ls ≠ [])
    (h : ∀ l ∈ ls, '\n' ∉ l) : splitNlL (joinNlL ls) = ls := by
  induction ls with
  | nil => exact absurd rfl hne
  | cons l ls ih =>
    cases ls with
    | nil =>
      rw [joinNlL]
      exact splitNlL_of_no_nl (h l (List.mem_cons_self l []))
    | cons l' ls' =>
      rw [joinNlL, splitNlL_append_nl_cons _ (h l (List.mem_cons_self _ _))]
      rw [ih (by simp) (fun x hx => h x (List.mem_cons_of_mem l hx))]

theorem joinNlL_ne_nil {l : List Char} (ls : List (List Char))
    (h : l ≠ []) : joinNlL (l :: ls) ≠ [] := by
  cases ls with
  | nil => simpa [joinNlL] using h
  | cons l' ls' =>
    rw [joinNlL]
    simp [h]

theorem joinNlL_head? {l : List Char} (ls : List (List Char)) (h : l ≠ []) :
    (joinNlL (l :: ls)).head? = l.head? := by
  cases ls with
  | nil => rfl
  | cons l' ls' =>
    rw [joinNlL, List.head?_append]
    rcases hl : l.head? with _ | c
    · rw [List.head?_eq_none_iff] at hl
      exact absurd hl h
    · rfl

theorem joinNlL_getLast? (ls : List (List Char)) (hne : ls ≠ [])
    (h : ∀ l ∈ ls, l ≠ ([] : List Char)) :
    ∃ x ∈ ls, (joinNlL ls).getLast? = x.getLast? := by
  induction ls with
  | nil => exact absurd rfl hne
  | cons l ls ih =>
    cases ls with
    | nil => exact ⟨l, List.mem_cons_self l [], rfl⟩
    | cons l' ls' =>
      rcases ih (by simp) (fun x hx => h x (List.mem_cons_of_mem l hx)) with
        ⟨x, hx, hlast⟩
      refine ⟨x, List.mem_cons_of_mem l hx, ?_⟩
      rw [joinNlL, List.getLast?_append]
      have hk : joinNlL (l' :: ls') ≠ [] :=
        joinNlL_ne_nil ls' (h l' (List.mem_cons_of_mem l (List.mem_cons_self l' ls')))
      have : ('\n' :: joinNlL (l' :: ls')).getLast? = (joinNlL (l' :: ls')).getLast? := by
        rw [← List.singleton_append, List.getLast?_append]
        rcases hg : (joinNlL (l' :: ls')).getLast? with _ | c
        · rw [List.getLast?_eq_none_iff] at hg
          exact absurd hg hk
        · rfl
      rw [this, hlast]
      rcases hg : x.getLast? with _ | c
      · rw [List.getLast?_eq_none_iff] at hg
        exact absurd hg (h x (List.mem_cons_of_mem l hx))
      · rfl

theorem stripL_joinNlL {ls : List (List Char)}
    (h : ∀ l ∈ ls, l ≠ [] ∧ stripL l = l) :
    stripL (joinNlL ls) = joinNlL ls := by
  cases ls with
  | nil => rfl
  | cons l ls' =>
    apply stripL_eq_self_of_ends
    · intro c hc
      rw [joinNlL_head? ls' (h l (List.mem_cons_self l ls')).1] at hc
      have hstrip := (h l (List.mem_cons_self l ls')).2
      rw [← hstrip] at hc
      exact stripL_head_not_ws hc
    · intro c hc
      rcases joinNlL_getLast? (l :: ls') (by simp) (fun x hx => (h x hx).1) with
        ⟨x, hx, hlast⟩
      rw [hlast] at hc
      have hstrip := (h x hx).2
      rw [← hstrip] at hc
      exact stripL_getLast_not_ws hc

/-! ### The custom-tags pipeline: strip the whole text, split, strip each
line, keep lines containing an equals sign -/

theorem keepLine_nil : keepLine [] = none := rfl

theorem keepLine_ws_cons {c : Char} (hc : isPyWS c = true) (l : List Char) :
    keepLine (c :: l) = keepLine l := by
  unfold keepLine
  rw [stripL_ws_cons hc]

theorem keepLine_ws_append {c : Char} (hc : isPyWS c = true) (l : List Char) :
    keepLine (l ++ [c]) = keepLine l := by
  unfold keepLine
  rw [stripL_ws_append hc]

theorem modifyHead_modLast (x c : Char) {L : List (List Char)} (h : L ≠ []) :
    (modLast (fun l => l ++ [c]) L).modifyHead (fun l => x :: l)
      = modLast (fun l => l ++ [c]) (L.modifyHead (fun l => x :: l)) := by
  rcases L with _ | ⟨l, ls⟩
  · exact absurd rfl h
  · rcases ls with _ | ⟨l', ls'⟩
    · simp [modLast, List.modifyHead_cons]
    · simp [modLast, List.modifyHead_cons]

theorem splitNlL_append_single {c : Char} (hc : c ≠ '\n') (a : List Char) :
    splitNlL (a ++ [c]) = modLast (fun l => l ++ [c]) (splitNlL a) := by
  induction a with
  | nil => simp [splitNlL, hc, modLast]
  | cons x a' ih =>
    rw [List.cons_append, splitNlL, splitNlL]
    by_cases hx : x = '\n'
    · rw [if_pos hx, if_pos hx, ih]
      rcases hsplit : splitNlL a' with _ | ⟨h1, t1⟩
      · exact absurd hsplit (splitNlL_ne_nil a')
      · simp [modLast]
    · rw [if_neg hx, if_neg hx, ih,
        modifyHead_modLast x c (splitNlL_ne_nil a')]

theorem splitNlL_append_nl_single (a : List Char) :
    splitNlL (a ++ ['\n']) = splitNlL a ++ [[]] := by
  induction a with
  | nil => simp [splitNlL]
  | cons x a' ih =>
    rw [List.cons_append, splitNlL, splitNlL]
    by_cases hx : x = '\n'
    · rw [if_pos hx, if_pos hx, ih]
      rfl
    · rw [if_neg hx, if_neg hx, ih]
      rcases hsplit : splitNlL a' with _ | ⟨h1, t1⟩
      · exact absurd hsplit (splitNlL_ne_nil a')
      · simp [List.modifyHead_cons]

theorem filterMap_keepLine_modLast {c : Char} (hc : isPyWS c = true)
    (L : List (List Char)) :
    (modLast (fun l => l ++ [c]) L).filterMap keepLine = L.filterMap keepLine := by
  induction L with
  | nil => rfl
  | cons l ls ih =>
    rcases ls with _ | ⟨l', ls'⟩
    · simp [modLast, List.filterMap_cons, keepLine_ws_append hc]
    · rw [modLast, List.filterMap_cons, List.filterMap_cons, ih]

theorem procL_append_ws {c : Char} (hc : isPyWS c = true) (a : List Char) :
    procL (a ++ [c]) = procL a := by
  unfold procL
  by_cases hnl : c = '\n'
  · subst hnl
    rw [splitNlL_append_nl_single, List.filterMap_append]
    simp [keepLine_nil]
  · rw [splitNlL_append_single hnl, filterMap_keepLine_modLast hc]

theorem procL_dropWhile_ws (s : List Char) :
    procL (s.dropWhile isPyWS) = procL s := by
  induction s with
  | nil => rfl
  | cons c cs ih =>
    rw [List.dropWhile_cons]
    by_cases hc : isPyWS c = true
    · rw [if_pos hc, ih]
      unfold procL
      rw [splitNlL]
      by_cases hnl : c = '\n'
      · rw [if_pos hnl, List.filterMap_cons]
        simp [keepLine_nil]
      · rw [if_neg hnl]
        rcases hsplit : splitNlL cs with _ | ⟨h1, t1⟩
        · exact absurd hsplit (splitNlL_ne_nil cs)
        · rw [List.modifyHead_cons, List.filterMap_cons, List.filterMap_cons,
            keepLine_ws_cons hc]
    · rw [if_neg hc]

theorem procL_rstripL (s : List Char) : procL (rstripL s) = procL s := by
  induction s using List.reverseRecOn with
  | nil => rfl
  | append_singleton a c ih =>
    by_cases hc : isPyWS c = true
    · have hr : rstripL (a ++ [c]) = rstripL a := by
        unfold rstripL
        rw [List.reverse_append]
        simp only [List.reverse_cons, List.reverse_nil, List.nil_append,
          List.singleton_append]
        rw [List.dropWhile_cons, if_pos hc]
      rw [hr, ih, procL_append_ws hc]
    · have hr : rstripL (a ++ [c]) = a ++ [c] := by
        unfold rstripL
        rw [List.reverse_append]
        simp only [List.reverse_cons, List.reverse_nil, List.nil_append,
          List.singleton_append]
        rw [List.dropWhile_cons, if_neg hc, List.reverse_cons,
          List.reverse_reverse]
      rw [hr]

theorem procL_stripL (s : List Char) : procL (stripL s) = procL s := by
  unfold stripL
  rw [procL_dropWhile_ws, procL_rstripL]

theorem procL_joinNlL {ls : List (List Char)} (h : ∀ l ∈ ls, '\n' ∉ l) :
    procL (joinNlL ls) = ls.filterMap keepLine := by
  induction ls with
  | nil =>
    unfold procL joinNlL
    simp [splitNlL, keepLine_nil]
  | cons l ls' ih =>
    rcases ls' with _ | ⟨l', ls''⟩
    · unfold procL joinNlL
      rw [splitNlL_of_no_nl (h l (List.mem_cons_self l []))]
    · unfold procL
      rw [joinNlL, splitNlL_append_nl_cons _ (h l (List.mem_cons_self _ _)),
        List.filterMap_cons, List.filterMap_cons]
      have := ih (fun x hx => h x (List.mem_cons_of_mem l hx))
      unfold procL at this
      rw [this]

/-! ### Lemmas about the entry-widget association list -/

theorem map_fst_setField (wk : List (String × String)) (k v : String) :
    (setField wk k v).map Prod.fst = wk.map Prod.fst := by
  unfold setField
  rw [List.map_map]
  apply List.map_congr_left
  intro p _
  by_cases hp : p.1 = k <;> simp [hp]

theorem hasField_setField (wk : List (String × String)) (k v k' : String) :
    hasField (setField wk k v) k' = hasField wk k' := by
  induction wk with
  | nil => rfl
  | cons p t ih =>
    unfold setField hasField at *
    rw [List.map_cons, List.any_cons, List.any_cons, ih]
    by_cases hp : p.1 = k <;> simp [hp]

theorem setField_of_not_has {wk : List (String × String)} {k : String}
    (h : hasField wk k = false) (v : String) : setField wk k v = wk := by
  induction wk with
  | nil => rfl
  | cons p t ih =>
    unfold hasField at h
    rw [List.any_cons] at h
    rcases Bool.or_eq_false_iff.mp h with ⟨h1, h2⟩
    unfold setField
    rw [List.map_cons, if_neg (by simpa using h1)]
    have := ih (by unfold hasField; exact h2)
    unfold setField at this
    rw [this]

theorem getField_setField_same {wk : List (String × String)} {k : String}
    (h : hasField wk k = true) (v : String) :
    getField (setField wk k v) k = v := by
  induction wk with
  | nil => simp [hasField] at h
  | cons p t ih =>
    unfold setField getField
    rw [List.map_cons]
    by_cases hp : p.1 = k
    · rw [if_pos hp]
      rw [List.find?_cons_of_pos _ (by simpa using hp)]
      rfl
    · rw [if_neg hp]
      rw [List.find?_cons_of_neg _ (by simpa using hp)]
      unfold hasField at h
      rw [List.any_cons] at h
      rcases Bool.or_eq_true_iff.mp h with h1 | h2
      · exact absurd (by simpa using h1) hp
      · have := ih (by unfold hasField; exact h2)
        unfold setField getField at this
        exact this

theorem getField_setField_other {wk : List (String × String)} {k f : String}
    (h : f ≠ k) (v : String) :
    getField (setField wk k v) f = getField wk f := by
  induction wk with
  | nil => rfl
  | cons p t ih =>
    unfold setField getField
    rw [List.map_cons]
    by_cases hp : p.1 = k
    · rw [if_pos hp]
      have hne : ¬((p.1, v).1 = f) := fun hc => h (by rw [← hc, hp])
      rw [List.find?_cons_of_neg _ (by simpa using hne)]
      rw [List.find?_cons_of_neg _ (by simp; intro hc; exact h (by rw [← hc, hp]))]
      unfold setField getField at ih
      exact ih
    · rw [if_neg hp]
      by_cases hf : p.1 = f
      · rw [List.find?_cons_of_pos _ (by simpa using hf),
          List.find?_cons_of_pos _ (by simpa using hf)]
      · rw [List.find?_cons_of_neg _ (by simpa using hf),
          List.find?_cons_of_neg _ (by simpa using hf)]
        unfold setField getField at ih
        exact ih

theorem getField_of_not_has {wk : List (String × String)} {f : String}
    (h : hasField wk f = false) : getField wk f = "" := by
  unfold getField
  rw [List.find?_eq_none.mpr]
  · rfl
  · intro p hp
    unfold hasField at h
    intro hpf
    have : wk.any (fun p => p.1 = f) = true :=
      List.any_eq_true.mpr ⟨p, hp, hpf⟩
    rw [h] at this
    cases this

theorem getField_of_mem_nodup {wk : List (String × String)} {k v : String}
    (hnd : (wk.map Prod.fst).Nodup) (hmem : (k, v) ∈ wk) :
    getField wk k = v := by
  induction wk with
  | nil => cases hmem
  | cons p t ih =>
    rw [List.map_cons, List.nodup_cons] at hnd
    rcases List.mem_cons.mp hmem with hmem | hmem
    · unfold getField
      rw [List.find?_cons_of_pos _ (by simp [← hmem])]
      rw [← hmem]
      rfl
    · unfold getField
      by_cases hp : p.1 = k
      · exfalso
        apply hnd.1
        rw [hp]
        exact List.mem_map.mpr ⟨(k, v), hmem, rfl⟩
      · rw [List.find?_cons_of_neg _ (by simpa using hp)]
        exact ih hnd.2 hmem

theorem hasField_true_iff (wk : List (String × String)) (k : String) :
    hasField wk k = true ↔ k ∈ wk.map Prod.fst := by
  unfold hasField
  rw [List.any_eq_true]
  constructor
  · rintro ⟨p, hp, hpk⟩
    exact List.mem_map.mpr ⟨p, hp, by simpa using hpk⟩
  · intro h
    rcases List.mem_map.mp h with ⟨p, hp, hpk⟩
    exact ⟨p, hp, by simpa using hpk⟩

theorem hasField_emptyWK (k : String) :
    hasField emptyWK k = true ↔ k ∈ common_tags := by
  rw [hasField_true_iff]
  unfold emptyWK
  rw [List.map_map]
  simp

theorem assoc_ext {w1 w2 : List (String × String)}
    (hk : w1.map Prod.fst = w2.map Prod.fst)
    (hnd : (w1.map Prod.fst).Nodup)
    (hget : ∀ f, getField w1 f = getField w2 f) : w1 = w2 := by
  induction w1 generalizing w2 with
  | nil =>
    cases w2 with
    | nil => rfl
    | cons q t2 => simp at hk
  | cons p t1 ih =>
    cases w2 with
    | nil => simp at hk
    | cons q t2 =>
      rw [List.map_cons, List.map_cons] at hk
      have hfst : p.1 = q.1 := by
        have := congrArg (fun l => l.head?) hk
        simpa using this
      have htl : t1.map Prod.fst = t2.map Prod.fst := by
        have := congrArg (fun l => l.tail) hk
        simpa using this
      rw [List.map_cons, List.nodup_cons] at hnd
      have hsnd : p.2 = q.2 := by
        have h1 := hget p.1
        unfold getField at h1
        rw [List.find?_cons_of_pos _ (by simp),
          List.find?_cons_of_pos _ (by simp [hfst.symm])] at h1
        simpa using h1
      have hpq : p = q := Prod.ext hfst hsnd
      rw [hpq]
      congr 1
      apply ih htl hnd.2
      intro f
      by_cases hf : f = p.1
      · have hn1 : hasField t1 f = false := by
          rcases h : hasField t1 f with _ | _
          · rfl
          · exfalso
            apply hnd.1
            rw [← hf]
            exact (hasField_true_iff t1 f).mp h
        have hn2 : hasField t2 f = false := by
          rcases h : hasField t2 f with _ | _
          · rfl
          · exfalso
            apply hnd.1
            rw [← hf, htl]
            exact (hasField_true_iff t2 f).mp h
        rw [getField_of_not_has hn1, getField_of_not_has hn2]
      · have h1 := hget f
        unfold getField at h1
        rw [List.find?_cons_of_neg _ (by simp; intro hc; exact hf hc.symm),
          List.find?_cons_of_neg _
            (by simp; intro hc; exact hf (by rw [← hc, hfst]))] at h1
        exact h1

/-! ### Characterization of the parse loop of `load_tags` -/

theorem parseLine_cases (wk : List (String × String)) (cs : List String)
    (l : String) :
    parseLine (wk, cs) l
      = if containsEq l = true then
          (if hasField wk (upKeyOf l) = true then
            (setField wk (upKeyOf l) (valOf l), cs)
          else (wk, cs ++ [l]))
        else (wk, cs) := rfl

theorem parse_foldl_keys (lines : List String) (wk : List (String × String))
    (cs : List String) :
    ((lines.foldl parseLine (wk, cs)).1).map Prod.fst = wk.map Prod.fst := by
  induction lines generalizing wk cs with
  | nil => rfl
  | cons l rest ih =>
    rw [List.foldl_cons, parseLine_cases]
    by_cases hc : containsEq l = true
    · rw [if_pos hc]
      by_cases hh : hasField wk (upKeyOf l) = true
      · rw [if_pos hh]
        rw [ih]
        exact map_fst_setField wk _ _
      · rw [if_neg hh]
        exact ih wk _
    · rw [if_neg hc]
      exact ih wk cs

theorem parse_foldl_custom (lines : List String) (wk : List (String × String))
    (cs : List String) :
    (lines.foldl parseLine (wk, cs)).2
      = cs ++ lines.filter (fun l => containsEq l && !hasField wk (upKeyOf l)) := by
  induction lines generalizing wk cs with
  | nil => simp
  | cons l rest ih =>
    rw [List.foldl_cons, List.filter_cons, parseLine_cases]
    by_cases hc : containsEq l = true
    · rw [if_pos hc]
      by_cases hh : hasField wk (upKeyOf l) = true
      · rw [if_pos hh]
        rw [ih]
        have hpred : (containsEq l && !hasField wk (upKeyOf l)) = false := by
          have : hasField wk (upKeyOf l) = true := hh
          simp [this]
        rw [hpred, if_neg (by simp)]
        congr 1
        apply List.filter_congr
        intro x _
        rw [hasField_setField]
      · rw [if_neg hh]
        rw [ih]
        have : hasField wk (upKeyOf l) = false := by
          simpa using hh
        have hpred : (containsEq l && !hasField wk (upKeyOf l)) = true := by
          simp [hc, this]
        rw [hpred, if_pos rfl]
        simp
    · rw [if_neg hc]
      rw [ih]
      have hpred : (containsEq l && !hasField wk (upKeyOf l)) = false := by
        simp [hc]
      rw [hpred, if_neg (by simp)]

theorem lastMatchLine_cons (f l : String) (rest : List String) :
    lastMatchLine f (l :: rest)
      = (lastMatchLine f rest).or
          (if (containsEq l && (upKeyOf l == f)) = true then some l else none) := by
  unfold lastMatchLine
  rw [List.reverse_cons, List.find?_append, List.find?_singleton]

theorem parse_foldl_getField (lines : List String) (wk : List (String × String))
    (cs : List String) (f : String) :
    getField (lines.foldl parseLine (wk, cs)).1 f
      = if hasField wk f = true then
          ((lastMatchLine f lines).map valOf).getD (getField wk f)
        else getField wk f := by
  induction lines generalizing wk cs with
  | nil =>
    by_cases hf : hasField wk f = true <;> simp [hf, lastMatchLine]
  | cons l rest ih =>
    rw [List.foldl_cons, lastMatchLine_cons, parseLine_cases]
    by_cases hc : containsEq l = true
    · rw [if_pos hc]
      by_cases hh : hasField wk (upKeyOf l) = true
      · rw [if_pos hh]
        rw [ih, hasField_setField]
        by_cases hf : hasField wk f = true
        · rw [if_pos hf, if_pos hf]
          rcases hlast : lastMatchLine f rest with _ | x
          · simp only [Option.map_none', Option.getD_none, Option.none_or]
            by_cases hkf : upKeyOf l = f
            · rw [hkf] at hh ⊢
              rw [getField_setField_same hh]
              have : (containsEq l && (f == f)) = true := by simp [hc]
              rw [if_pos this]
              rfl
            · have hbeq : (upKeyOf l == f) = false := by
                simp [hkf]
              rw [getField_setField_other (fun hcon => hkf hcon.symm)]
              have : (containsEq l && (upKeyOf l == f)) = false := by
                simp [hbeq]
              rw [this, if_neg (by simp)]
              rfl
          · simp
        · rw [if_neg hf, if_neg hf]
          have hkf : f ≠ upKeyOf l := by
            intro hcon
            rw [hcon] at hf
            exact hf hh
          exact getField_setField_other hkf _
      · rw [if_neg hh]
        rw [ih]
        have hne : hasField wk (upKeyOf l) = false := by simpa using hh
        by_cases hf : hasField wk f = true
        · rw [if_pos hf, if_pos hf]
          have hkf : (upKeyOf l == f) = false := by
            have : upKeyOf l ≠ f := by
              intro hcon
              rw [hcon] at hne
              rw [hf] at hne
              cases hne
            simp [this]
          have : (containsEq l && (upKeyOf l == f)) = false := by simp [hkf]
          rw [this, if_neg (by simp), Option.or_none]
        · rw [if_neg hf, if_neg hf]
    · rw [if_neg hc]
      rw [ih]
      have hfalse : (containsEq l && (upKeyOf l == f)) = false := by simp [hc]
      rw [hfalse]
      by_cases hf : hasField wk f = true
      · rw [if_pos hf, if_pos hf, if_neg (by simp), Option.or_none]
      · rw [if_neg hf, if_neg hf]

/-! ### Characterization of the save pipeline -/

theorem containsEqL_ne_nil {x : List Char} (h : containsEqL x = true) :
    x ≠ [] := by
  intro hx
  rw [hx] at h
  simp [containsEqL] at h

theorem keepLine_eq (l : List Char) :
    keepLine l = if containsEqL (stripL l) = true then some (stripL l) else none := by
  by_cases hc : containsEqL (stripL l) = true
  · have hne : stripL l ≠ [] := containsEqL_ne_nil hc
    simp [keepLine, hc, hne]
  · simp [keepLine, hc]

theorem customArgs_eq (custom : List String)
    (h : ∀ l ∈ custom, '\n' ∉ l.data) :
    customArgs custom
      = ((custom.map String.data).filterMap keepLine).map
          (fun l => (⟨l⟩ : String)) := by
  have h2 : ∀ l ∈ custom.map String.data, '\n' ∉ l := by
    intro l hl
    rcases List.mem_map.mp hl with ⟨x, hx, hxl⟩
    rw [← hxl]
    exact h x hx
  have hproc :
      (splitNlL (stripL (joinNlL (custom.map String.data)))).filterMap keepLine
        = (custom.map String.data).filterMap keepLine := by
    have hs := procL_stripL (joinNlL (custom.map String.data))
    have hj := procL_joinNlL h2
    unfold procL at hs hj
    rw [hs, hj]
  simp only [customArgs]
  by_cases hct : pyStrip (joinNl custom) = ""
  · rw [if_pos hct]
    have hdata : stripL (joinNlL (custom.map String.data)) = [] := by
      have := congrArg String.data hct
      exact this
    rw [← hproc, hdata]
    simp [splitNlL, keepLine_nil]
  · rw [if_neg hct]
    rw [show (pyStrip (joinNl custom)).data
        = stripL (joinNlL (custom.map String.data)) from rfl, hproc]

theorem filterMap_keepLine_filter (custom : List String) :
    ((custom.map String.data).filterMap keepLine).map (fun d => (⟨d⟩ : String))
      = (custom.map pyStrip).filter containsEq := by
  induction custom with
  | nil => rfl
  | cons l t ih =>
    rw [List.map_cons, List.filterMap_cons, List.map_cons, List.filter_cons,
      keepLine_eq]
    by_cases hc : containsEqL (stripL l.data) = true
    · rw [if_pos hc]
      have hceq : containsEq (pyStrip l) = true := hc
      rw [if_pos hceq, List.map_cons, ih]
      rfl
    · rw [if_neg hc]
      have hceq : ¬containsEq (pyStrip l) = true := hc
      rw [if_neg hceq, ih]

theorem customArgs_eq_filter (custom : List String)
    (h : ∀ l ∈ custom, '\n' ∉ l.data) :
    customArgs custom = (custom.map pyStrip).filter containsEq := by
  rw [customArgs_eq custom h, filterMap_keepLine_filter]

theorem filterMap_keepLine_clean (custom : List String) :
    (∀ l ∈ custom, pyStrip l = l ∧ containsEq l = true) →
    ((custom.map String.data).filterMap keepLine).map (fun d => (⟨d⟩ : String))
      = custom := by
  induction custom with
  | nil => intro _; rfl
  | cons l t ih =>
    intro h
    rcases h l (List.mem_cons_self l t) with ⟨hstrip, hceq⟩
    have hdata : stripL l.data = l.data := congrArg String.data hstrip
    have hkeep : keepLine l.data = some l.data := by
      rw [keepLine_eq, hdata, if_pos (show containsEqL l.data = true from hceq)]
    rw [List.map_cons]
    simp only [List.filterMap_cons, hkeep]
    rw [List.map_cons, ih (fun x hx => h x (List.mem_cons_of_mem l hx))]

theorem customArgs_of_clean (custom : List String)
    (h : ∀ l ∈ custom, '\n' ∉ l.data ∧ pyStrip l = l ∧ containsEq l = true) :
    customArgs custom = custom := by
  rw [customArgs_eq custom (fun l hl => (h l hl).1)]
  exact filterMap_keepLine_clean custom (fun l hl => ⟨(h l hl).2.1, (h l hl).2.2⟩)

theorem wellKnownArgs_eq_filter (wk : List (String × String)) :
    wellKnownArgs wk
      = (wk.filter (fun p => pyStrip p.2 ≠ "")).map
          (fun p => p.1 ++ "=" ++ pyStrip p.2) := by
  induction wk with
  | nil => rfl
  | cons p t ih =>
    rw [List.filter_cons]
    by_cases hp : pyStrip p.2 ≠ ""
    · have hhead : (if pyStrip p.2 ≠ "" then some (p.1 ++ "=" ++ pyStrip p.2)
          else none) = some (p.1 ++ "=" ++ pyStrip p.2) := if_pos hp
      unfold wellKnownArgs
      simp only [List.filterMap_cons, hhead]
      rw [if_pos (by simpa using hp), List.map_cons]
      unfold wellKnownArgs at ih
      rw [ih]
    · have hhead : (if pyStrip p.2 ≠ "" then some (p.1 ++ "=" ++ pyStrip p.2)
          else none) = none := if_neg hp
      unfold wellKnownArgs
      simp only [List.filterMap_cons, hhead]
      rw [if_neg (by simpa using hp)]
      unfold wellKnownArgs at ih
      rw [ih]

/-! ### Execution of check=True invocation sequences -/

theorem execInvs_all_success {succeeds : Invocation → Bool}
    (hsucc : ∀ i, succeeds i = true) (st : List String)
    (invs : List Invocation) :
    execInvs succeeds st invs = (applyInvs st invs, invs, true) := by
  induction invs generalizing st with
  | nil => rfl
  | cons i rest ih =>
    rw [execInvs, if_pos (hsucc i), ih (applyInv st i)]
    rfl

theorem applyInvs_setTags (path : String) (args : List String)
    (st : List String) :
    applyInvs st (args.map (Invocation.setTag path)) = st ++ args := by
  induction args generalizing st with
  | nil => simp [applyInvs]
  | cons a rest ih =>
    rw [List.map_cons]
    unfold applyInvs at *
    rw [List.foldl_cons, ih]
    simp [applyInv]

theorem execInvs_first_fail {succeeds : Invocation → Bool}
    {pre : List Invocation} {bad : Invocation}
    (hpre : ∀ i ∈ pre, succeeds i = true) (hbad : succeeds bad = false)
    (rest : List Invocation) (st : List String) :
    execInvs succeeds st (pre ++ bad :: rest)
      = (applyInvs st pre, pre ++ [bad], false) := by
  induction pre generalizing st with
  | nil =>
    rw [List.nil_append, execInvs, if_neg (by rw [hbad]; simp)]
    rfl
  | cons i pre' ih =>
    rw [List.cons_append, execInvs,
      if_pos (hpre i (List.mem_cons_self i pre')),
      ih (fun x hx => hpre x (List.mem_cons_of_mem i hx)) (applyInv st i)]
    rfl

/-! ### Keys and values of saved tag payloads -/

theorem splitEqL_append {k : List Char} (hk : '=' ∉ k) (v : List Char) :
    splitEqL (k ++ '=' :: v) = (k, v) := by
  induction k with
  | nil => simp [splitEqL]
  | cons c cs ih =>
    have hc : c ≠ '=' := fun hc => hk (by simp [hc])
    rw [List.cons_append, splitEqL]
    rw [if_neg hc, ih (fun hm => hk (List.mem_cons_of_mem c hm))]

theorem splitEqL_fst_mem {l : List Char} {c : Char}
    (h : c ∈ (splitEqL l).1) : c ∈ l := by
  induction l with
  | nil => simp [splitEqL] at h
  | cons a t ih =>
    rw [splitEqL] at h
    by_cases ha : a = '='
    · rw [if_pos ha] at h
      simp at h
    · rw [if_neg ha] at h
      simp only at h
      rcases List.mem_cons.mp h with h | h
      · simp [h]
      · exact List.mem_cons_of_mem a (ih h)

theorem splitEqL_snd_mem {l : List Char} {c : Char}
    (h : c ∈ (splitEqL l).2) : c ∈ l := by
  induction l with
  | nil => simp [splitEqL] at h
  | cons a t ih =>
    rw [splitEqL] at h
    by_cases ha : a = '='
    · rw [if_pos ha] at h
      exact List.mem_cons_of_mem a h
    · rw [if_neg ha] at h
      simp only at h
      exact List.mem_cons_of_mem a (ih h)

theorem string_append_data (f v : String) :
    (f ++ "=" ++ v).data = f.data ++ '=' :: v.data := by
  rw [String.data_append, String.data_append]
  rw [List.append_assoc]
  rfl

theorem keyOf_arg {f : String} (hf : '=' ∉ f.data) (v : String) :
    keyOf (f ++ "=" ++ v) = f := by
  unfold keyOf
  rw [string_append_data, splitEqL_append hf]

theorem valOf_arg {f : String} (hf : '=' ∉ f.data) (v : String) :
    valOf (f ++ "=" ++ v) = v := by
  unfold valOf
  rw [string_append_data, splitEqL_append hf]

theorem containsEq_arg {f : String} (v : String) :
    containsEq (f ++ "=" ++ v) = true := by
  unfold containsEq containsEqL
  rw [string_append_data]
  apply List.any_eq_true.mpr
  exact ⟨'=', by simp, by simp⟩

/-! ### Facts about the fixed field list -/

theorem common_tags_nodup : common_tags.Nodup := by decide

theorem common_tags_wf : ∀ t ∈ common_tags,
    t.data ≠ [] ∧ '=' ∉ t.data ∧ '\n' ∉ t.data ∧ pyUpper t = t
      ∧ stripL t.data = t.data := by decide

theorem emptyWK_keys : emptyWK.map Prod.fst = common_tags := by
  unfold emptyWK
  rw [List.map_map]
  have hcomp : (Prod.fst ∘ fun t : String => (t, "")) = id := rfl
  rw [hcomp, List.map_id]

/-! ### Cleanliness of the payloads written by a save -/

theorem head_not_ws_of_strip_inv {x : List Char} {c : Char}
    (hinv : stripL x = x) (h : x.head? = some c) : isPyWS c = false := by
  rw [← hinv] at h
  exact stripL_head_not_ws h

theorem getLast_not_ws_of_strip_inv {x : List Char} {c : Char}
    (hinv : stripL x = x) (h : x.getLast? = some c) : isPyWS c = false := by
  rw [← hinv] at h
  exact stripL_getLast_not_ws h

theorem mem_wellKnownArgs {wk : List (String × String)} {a : String}
    (h : a ∈ wellKnownArgs wk) :
    ∃ p ∈ wk, pyStrip p.2 ≠ "" ∧ a = p.1 ++ "=" ++ pyStrip p.2 := by
  rw [wellKnownArgs_eq_filter] at h
  rcases List.mem_map.mp h with ⟨p, hp, hpa⟩
  rcases List.mem_filter.mp hp with ⟨hpmem, hpne⟩
  exact ⟨p, hpmem, by simpa using hpne, hpa.symm⟩

theorem clean_wkArg {wk : List (String × String)} {a : String}
    (hk : wk.map Prod.fst = common_tags)
    (hv : ∀ p ∈ wk, '\n' ∉ p.2.data)
    (h : a ∈ wellKnownArgs wk) :
    a.data ≠ [] ∧ stripL a.data = a.data ∧ '\n' ∉ a.data := by
  rcases mem_wellKnownArgs h with ⟨p, hp, hpne, hpa⟩
  have hf : p.1 ∈ common_tags := by
    rw [← hk]
    exact List.mem_map.mpr ⟨p, hp, rfl⟩
  rcases common_tags_wf p.1 hf with ⟨hfne, _, hfnl, _, hfinv⟩
  have hvne : (pyStrip p.2).data ≠ [] := by
    intro hc
    apply hpne
    apply String.ext
    exact hc
  have hdata : a.data = p.1.data ++ '=' :: (pyStrip p.2).data := by
    rw [hpa]
    exact string_append_data p.1 (pyStrip p.2)
  refine ⟨?_, ?_, ?_⟩
  · rw [hdata]
    intro hc
    rcases List.append_eq_nil.mp hc with ⟨_, h2⟩
    cases h2
  · rw [hdata]
    apply stripL_eq_self_of_ends
    · intro c hc
      rw [List.head?_append] at hc
      rcases hhd : p.1.data.head? with _ | c0
      · rw [List.head?_eq_none_iff] at hhd
        exact absurd hhd hfne
      · rw [hhd] at hc
        cases hc
        exact head_not_ws_of_strip_inv hfinv hhd
    · intro c hc
      rw [List.getLast?_append] at hc
      have hlast : ('=' :: (pyStrip p.2).data).getLast? = (pyStrip p.2).data.getLast? := by
        rw [← List.singleton_append, List.getLast?_append]
        rcases hg : (pyStrip p.2).data.getLast? with _ | c1
        · rw [List.getLast?_eq_none_iff] at hg
          exact absurd hg hvne
        · rfl
      rw [hlast] at hc
      rcases hg : (pyStrip p.2).data.getLast? with _ | c1
      · rw [List.getLast?_eq_none_iff] at hg
        exact absurd hg hvne
      · rw [hg] at hc
        cases hc
        exact stripL_getLast_not_ws (show (stripL p.2.data).getLast? = some c from hg)
  · rw [hdata]
    intro hc
    rcases List.mem_append.mp hc with hc | hc
    · exact hfnl hc
    · rcases List.mem_cons.mp hc with hc | hc
      · cases hc
      · exact hv p hp (mem_stripL hc)

theorem clean_customArg {custom : List String} {a : String}
    (hnl : ∀ l ∈ custom, '\n' ∉ l.data)
    (h : a ∈ customArgs custom) :
    a.data ≠ [] ∧ stripL a.data = a.data ∧ '\n' ∉ a.data
      ∧ containsEq a = true ∧ ∃ l ∈ custom, a = pyStrip l := by
  rw [customArgs_eq_filter custom hnl] at h
  rcases List.mem_filter.mp h with ⟨hmem, hceq⟩
  rcases List.mem_map.mp hmem with ⟨l, hl, hla⟩
  have hdata : a.data = stripL l.data := by rw [← hla]; rfl
  refine ⟨?_, ?_, ?_, hceq, l, hl, hla.symm⟩
  · rw [hdata]
    exact containsEqL_ne_nil (show containsEqL (stripL l.data) = true from by
      rw [← hdata]; exact hceq)
  · rw [hdata]
    exact stripL_idem l.data
  · rw [hdata]
    intro hc
    exact hnl l hl (mem_stripL hc)

theorem find?_eq_some_of_unique {α : Type} {p : α → Bool} {L : List α} {a : α}
    (ha : a ∈ L) (hpa : p a = true)
    (huniq : ∀ b ∈ L, p b = true → b = a) : L.find? p = some a := by
  induction L with
  | nil => cases ha
  | cons x t ih =>
    by_cases hx : p x = true
    · rw [List.find?_cons_of_pos _ hx]
      rw [huniq x (List.mem_cons_self x t) hx]
    · rw [List.find?_cons_of_neg _ hx]
      rcases List.mem_cons.mp ha with ha | ha
      · rw [ha] at hpa
        exact absurd hpa hx
      · exact ih ha (fun b hb hpb => huniq b (List.mem_cons_of_mem x hb) hpb)

/-! ### Reloading a saved file -/

theorem splitNl_pyStrip_join {args : List String} (hne : args ≠ [])
    (hclean : ∀ a ∈ args, a.data ≠ [] ∧ stripL a.data = a.data ∧ '\n' ∉ a.data) :
    splitNl (pyStrip (joinNl args)) = args := by
  have hclean2 : ∀ l ∈ args.map String.data, l ≠ [] ∧ stripL l = l := by
    intro l hl
    rcases List.mem_map.mp hl with ⟨a, ha, hal⟩
    rw [← hal]
    exact ⟨(hclean a ha).1, (hclean a ha).2.1⟩
  have hnl2 : ∀ l ∈ args.map String.data, '\n' ∉ l := by
    intro l hl
    rcases List.mem_map.mp hl with ⟨a, ha, hal⟩
    rw [← hal]
    exact (hclean a ha).2.2
  have hne2 : args.map String.data ≠ [] := by
    intro hc
    exact hne (List.map_eq_nil_iff.mp hc)
  have hstrip := stripL_joinNlL hclean2
  have hsplit := splitNlL_join hne2 hnl2
  show ((splitNlL ((pyStrip (joinNl args)).data)).map (fun l => (⟨l⟩ : String))) = args
  rw [show (pyStrip (joinNl args)).data
      = stripL (joinNlL (args.map String.data)) from rfl, hstrip, hsplit,
    List.map_map]
  have hcomp : ((fun l => (⟨l⟩ : String)) ∘ String.data) = id := rfl
  rw [hcomp, List.map_id]

theorem load_parse_custom (s : String) (wk0 : List (String × String)) :
    (load_parse s wk0).custom
      = (splitNl (pyStrip s)).filter
          (fun l => containsEq l && !hasField wk0 (upKeyOf l)) := by
  show ((splitNl (pyStrip s)).foldl parseLine (wk0, [])).2 = _
  rw [parse_foldl_custom, List.nil_append]

theorem load_parse_getField (s : String) (wk0 : List (String × String))
    (f : String) :
    getField (load_parse s wk0).wellKnown f
      = if hasField wk0 f = true then
          ((lastMatchLine f (splitNl (pyStrip s))).map valOf).getD (getField wk0 f)
        else getField wk0 f := by
  show getField ((splitNl (pyStrip s)).foldl parseLine (wk0, [])).1 f = _
  exact parse_foldl_getField _ wk0 [] f

theorem load_parse_keys (s : String) (wk0 : List (String × String)) :
    (load_parse s wk0).wellKnown.map Prod.fst = wk0.map Prod.fst := by
  show ((splitNl (pyStrip s)).foldl parseLine (wk0, [])).1.map Prod.fst = _
  exact parse_foldl_keys _ wk0 []

theorem mem_splitNl_no_nl {s : String} {l : String} (h : l ∈ splitNl s) :
    '\n' ∉ l.data := by
  rcases List.mem_map.mp h with ⟨x, hx, hxl⟩
  rw [← hxl]
  exact splitNlL_no_nl s.data x hx

theorem lastMatchLine_eq_some {f x : String} {lines : List String}
    (h : lastMatchLine f lines = some x) :
    x ∈ lines ∧ containsEq x = true ∧ upKeyOf x = f := by
  unfold lastMatchLine at h
  have hmem := List.mem_of_find?_eq_some h
  rw [List.mem_reverse] at hmem
  have hp := List.find?_some h
  rcases Bool.and_eq_true_iff.mp hp with ⟨h1, h2⟩
  exact ⟨hmem, h1, by simpa using h2⟩

theorem load_custom_facts (s : String) :
    ∀ l ∈ (load_parse s emptyWK).custom,
      containsEq l = true ∧ hasField emptyWK (upKeyOf l) = false
        ∧ '\n' ∉ l.data := by
  intro l hl
  rw [load_parse_custom] at hl
  rcases List.mem_filter.mp hl with ⟨hmem, hpred⟩
  rcases Bool.and_eq_true_iff.mp hpred with ⟨h1, h2⟩
  refine ⟨h1, by simpa using h2, mem_splitNl_no_nl hmem⟩

theorem getField_mem {wk : List (String × String)} {f : String}
    (h : hasField wk f = true) : (f, getField wk f) ∈ wk := by
  unfold getField
  rcases hfind : wk.find? (fun p => p.1 = f) with _ | p
  · exfalso
    unfold hasField at h
    rcases List.any_eq_true.mp h with ⟨p, hp, hpf⟩
    rw [List.find?_eq_none] at hfind
    exact hfind p hp hpf
  · rw [hfind]
    have hmem := List.mem_of_find?_eq_some hfind
    have hpf : p.1 = f := by simpa using List.find?_some hfind
    have heq : (f, (Option.map Prod.snd (some p)).getD "") = p := by
      rw [← hpf]
      rfl
    rw [heq]
    exact hmem

theorem getField_emptyWK (f : String) : getField emptyWK f = "" := by
  unfold emptyWK getField
  rcases hfind : (common_tags.map fun t => (t, "")).find? (fun q => q.1 = f)
      with _ | q
  · rw [hfind]
    rfl
  · rw [hfind]
    rcases List.mem_map.mp (List.mem_of_find?_eq_some hfind) with ⟨t, _, htq⟩
    rw [← htq]
    rfl

theorem load_values_no_nl (s : String) :
    ∀ p ∈ (load_parse s emptyWK).wellKnown, '\n' ∉ p.2.data := by
  intro p hp
  have hkeys : (load_parse s emptyWK).wellKnown.map Prod.fst = common_tags := by
    rw [load_parse_keys, emptyWK_keys]
  have hnd : ((load_parse s emptyWK).wellKnown.map Prod.fst).Nodup := by
    rw [hkeys]
    exact common_tags_nodup
  have hget : getField (load_parse s emptyWK).wellKnown p.1 = p.2 :=
    getField_of_mem_nodup hnd (by rw [show (p.1, p.2) = p from rfl]; exact hp)
  have hf : p.1 ∈ common_tags := by
    rw [← hkeys]
    exact List.mem_map.mpr ⟨p, hp, rfl⟩
  have hhas : hasField emptyWK p.1 = true := (hasField_emptyWK p.1).mpr hf
  rw [load_parse_getField, if_pos hhas] at hget
  rcases hlast : lastMatchLine p.1 (splitNl (pyStrip s)) with _ | x
  · rw [hlast] at hget
    simp only [Option.map_none', Option.getD_none] at hget
    rw [getField_emptyWK] at hget
    rw [← hget]
    simp
  · rw [hlast] at hget
    simp only [Option.map_some', Option.getD_some] at hget
    rcases lastMatchLine_eq_some hlast with ⟨hmem, _, _⟩
    rw [← hget]
    intro hc
    exact mem_splitNl_no_nl hmem (splitEqL_snd_mem hc)

theorem mem_wellKnownArgs_of {wk : List (String × String)} {q : String × String}
    (hq : q ∈ wk) (hne : pyStrip q.2 ≠ "") :
    q.1 ++ "=" ++ pyStrip q.2 ∈ wellKnownArgs wk := by
  rw [wellKnownArgs_eq_filter]
  exact List.mem_map.mpr
    ⟨q, List.mem_filter.mpr ⟨hq, by simpa using hne⟩, rfl⟩

theorem upKeyOf_wkArg {q : String × String} (hq : q.1 ∈ common_tags) :
    upKeyOf (q.1 ++ "=" ++ pyStrip q.2) = q.1 := by
  rcases common_tags_wf q.1 hq with ⟨_, hneq, _, hup, _⟩
  unfold upKeyOf
  rw [keyOf_arg hneq, hup]

theorem lastMatchLine_args {wk : List (String × String)} {cust : List String}
    {f : String} (hk : wk.map Prod.fst = common_tags) (hf : f ∈ common_tags)
    (hcust : ∀ l ∈ cust, upKeyOf l ≠ f) :
    lastMatchLine f (wellKnownArgs wk ++ cust)
      = if pyStrip (getField wk f) = "" then none
        else some (f ++ "=" ++ pyStrip (getField wk f)) := by
  have hnd : (wk.map Prod.fst).Nodup := by rw [hk]; exact common_tags_nodup
  have hhas : hasField wk f = true := by
    rw [hasField_true_iff, hk]
    exact hf
  have harg : ∀ b ∈ wellKnownArgs wk ++ cust,
      (containsEq b && (upKeyOf b == f)) = true →
      b = f ++ "=" ++ pyStrip (getField wk f) ∧ pyStrip (getField wk f) ≠ "" := by
    intro b hb hpred
    rcases Bool.and_eq_true_iff.mp hpred with ⟨_hc, hbeq⟩
    have hbf : upKeyOf b = f := by simpa using hbeq
    rcases List.mem_append.mp hb with hb | hb
    · rcases mem_wellKnownArgs hb with ⟨q, hq, hqne, hqb⟩
      have hq1 : q.1 ∈ common_tags := by
        rw [← hk]
        exact List.mem_map.mpr ⟨q, hq, rfl⟩
      have hqf : q.1 = f := by
        rw [hqb, upKeyOf_wkArg hq1] at hbf
        exact hbf
      have hgf : getField wk f = q.2 := by
        rw [← hqf]
        exact getField_of_mem_nodup hnd
          (by rw [show (q.1, q.2) = q from rfl]; exact hq)
      constructor
      · rw [hqb, hqf, hgf]
      · rw [hgf]
        exact hqne
    · exact absurd hbf (hcust b hb)
  by_cases hgf : pyStrip (getField wk f) = ""
  · rw [if_pos hgf]
    unfold lastMatchLine
    rw [List.find?_eq_none]
    intro x hx hpred
    rcases harg x (List.mem_reverse.mp hx) hpred with ⟨_, hne⟩
    exact hne hgf
  · rw [if_neg hgf]
    unfold lastMatchLine
    apply find?_eq_some_of_unique
    · rw [List.mem_reverse]
      apply List.mem_append.mpr
      left
      exact mem_wellKnownArgs_of (getField_mem hhas) hgf
    · apply Bool.and_eq_true_iff.mpr
      refine ⟨containsEq_arg _, ?_⟩
      have hup : upKeyOf (f ++ "=" ++ pyStrip (getField wk f)) = f :=
        upKeyOf_wkArg (q := (f, getField wk f)) hf
      simp [hup]
    · intro b hb hpred
      exact (harg b (List.mem_reverse.mp hb) hpred).1

theorem clean_args {wk : List (String × String)} {cust : List String}
    (hk : wk.map Prod.fst = common_tags)
    (hv : ∀ p ∈ wk, '\n' ∉ p.2.data)
    (hcust : ∀ a ∈ cust, a.data ≠ [] ∧ stripL a.data = a.data ∧ '\n' ∉ a.data) :
    ∀ a ∈ wellKnownArgs wk ++ cust,
      a.data ≠ [] ∧ stripL a.data = a.data ∧ '\n' ∉ a.data := by
  intro a ha
  rcases List.mem_append.mp ha with ha | ha
  · exact clean_wkArg hk hv ha
  · exact hcust a ha

theorem reload_getField {wk : List (String × String)} {cust : List String}
    {f : String} (hk : wk.map Prod.fst = common_tags)
    (hv : ∀ p ∈ wk, '\n' ∉ p.2.data)
    (hcustclean : ∀ a ∈ cust, a.data ≠ [] ∧ stripL a.data = a.data ∧ '\n' ∉ a.data)
    (hf : f ∈ common_tags) (hcust : ∀ l ∈ cust, upKeyOf l ≠ f) :
    getField (load_parse (joinNl (wellKnownArgs wk ++ cust)) emptyWK).wellKnown f
      = if pyStrip (getField wk f) = "" then "" else pyStrip (getField wk f) := by
  have hhas : hasField wk f = true := by
    rw [hasField_true_iff, hk]
    exact hf
  by_cases hargs : wellKnownArgs wk ++ cust = []
  · have hgf : pyStrip (getField wk f) = "" := by
      by_contra hgf
      have hmem := mem_wellKnownArgs_of (getField_mem hhas) hgf
      have : (f, getField wk f).1 ++ "=" ++ pyStrip (f, getField wk f).2
          ∈ wellKnownArgs wk ++ cust := List.mem_append.mpr (Or.inl hmem)
      rw [hargs] at this
      cases this
    rw [hargs, if_pos hgf]
    rw [load_parse_getField, if_pos ((hasField_emptyWK f).mpr hf)]
    have hsplit : splitNl (pyStrip (joinNl ([] : List String))) = [""] := rfl
    rw [hsplit]
    have hlm : lastMatchLine f [""] = none := by
      unfold lastMatchLine
      rw [List.find?_eq_none]
      intro x hx hpred
      rcases Bool.and_eq_true_iff.mp hpred with ⟨hc, _⟩
      have hx : x = "" := by simpa using hx
      rw [hx] at hc
      simp [containsEq, containsEqL] at hc
    rw [hlm]
    simp [getField_emptyWK]
  · rw [load_parse_getField, if_pos ((hasField_emptyWK f).mpr hf),
      splitNl_pyStrip_join hargs (clean_args hk hv hcustclean),
      lastMatchLine_args hk hf hcust]
    by_cases hgf : pyStrip (getField wk f) = ""
    · rw [if_pos hgf, if_pos hgf]
      simp [getField_emptyWK]
    · rw [if_neg hgf, if_neg hgf]
      simp only [Option.map_some', Option.getD_some]
      exact valOf_arg (common_tags_wf f hf).2.1 _

theorem reload_custom {wk : List (String × String)} {cust : List String}
    (hk : wk.map Prod.fst = common_tags)
    (hv : ∀ p ∈ wk, '\n' ∉ p.2.data)
    (hcustclean : ∀ a ∈ cust, a.data ≠ [] ∧ stripL a.data = a.data ∧ '\n' ∉ a.data)
    (hcustkeys : ∀ l ∈ cust, containsEq l = true
      ∧ hasField emptyWK (upKeyOf l) = false) :
    (load_parse (joinNl (wellKnownArgs wk ++ cust)) emptyWK).custom = cust := by
  by_cases hargs : wellKnownArgs wk ++ cust = []
  · rcases List.append_eq_nil.mp hargs with ⟨_, hc⟩
    rw [hargs, hc]
    rw [load_parse_custom]
    have hsplit : splitNl (pyStrip (joinNl ([] : List String))) = [""] := rfl
    rw [hsplit]
    rw [List.filter_eq_nil_iff]
    intro a ha
    have ha : a = "" := by simpa using ha
    rw [ha]
    simp [containsEq, containsEqL]
  · rw [load_parse_custom,
      splitNl_pyStrip_join hargs (clean_args hk hv hcustclean),
      List.filter_append]
    have h1 : (wellKnownArgs wk).filter
        (fun l => containsEq l && !hasField emptyWK (upKeyOf l)) = [] := by
      rw [List.filter_eq_nil_iff]
      intro a ha
      rcases mem_wellKnownArgs ha with ⟨q, hq, _, hqa⟩
      have hq1 : q.1 ∈ common_tags := by
        rw [← hk]
        exact List.mem_map.mpr ⟨q, hq, rfl⟩
      have hup : upKeyOf a = q.1 := by
        rw [hqa]
        exact upKeyOf_wkArg hq1
      have hhasq : hasField emptyWK (upKeyOf a) = true := by
        rw [hup]
        exact (hasField_emptyWK q.1).mpr hq1
      simp [hhasq]
    have h2 : cust.filter
        (fun l => containsEq l && !hasField emptyWK (upKeyOf l)) = cust := by
      rw [List.filter_eq_self]
      intro a ha
      rcases hcustkeys a ha with ⟨hc, hh⟩
      simp [hc, hh]
    rw [h1, h2, List.nil_append]

/-! ### Runs of the GUI callbacks -/

theorem save_tags_success (path : String) (probe : ProbeResult) (ts : TagSet)
    (succeeds : Invocation → Bool) (st : List String)
    (hprobe : check_metaflac probe = true) (hsucc : ∀ i, succeeds i = true) :
    save_tags (some path) probe ts succeeds st
      = ⟨Invocation.versionProbe :: savePlan path ts, saveArgs ts, .done⟩ := by
  have hstate : applyInvs st (savePlan path ts) = saveArgs ts := by
    unfold savePlan applyInvs
    rw [List.foldl_cons]
    have happ := applyInvs_setTags path (saveArgs ts) (applyInv st (Invocation.removeAllTags path))
    unfold applyInvs at happ
    rw [happ]
    rfl
  show (if check_metaflac probe then _ else _) = _
  rw [if_pos hprobe, execInvs_all_success hsucc st (savePlan path ts)]
  rw [show ((applyInvs st (savePlan path ts), savePlan path ts, true) :
      List String × List Invocation × Bool).1 = applyInvs st (savePlan path ts) from rfl]
  rw [hstate]
  rfl

/-- C6: whenever the availability probe fails (executable missing or
non-zero exit), `check_metaflac` returns false, and Save, Save-and-exit and
Remove-all each return before launching any remove-all-tags or set-tag
subprocess, leaving the file state untouched. -/
theorem unavailable_blocks_mutations (file? : Option String)
    (probe : ProbeResult) (ts : TagSet) (succeeds : Invocation → Bool)
    (st : List String) (confirmed : Bool)
    (hp : ∀ c, probe = ProbeResult.exited c → c ≠ 0) :
    check_metaflac probe = false
    ∧ (save_tags file? probe ts succeeds st).launched.all
        (fun i => !i.mutating) = true
    ∧ (save_tags file? probe ts succeeds st).fileState = st
    ∧ (save_tags_and_exit file? probe ts succeeds st).launched.all
        (fun i => !i.mutating) = true
    ∧ (save_tags_and_exit file? probe ts succeeds st).fileState = st
    ∧ (remove_all_tags file? confirmed probe ts succeeds st).launched.all
        (fun i => !i.mutating) = true
    ∧ (remove_all_tags file? confirmed probe ts succeeds st).fileState = st
    ∧ (remove_all_tags file? confirmed probe ts succeeds st).tagSet = ts := by
  have hcheck : check_metaflac probe = false := by
    cases probe with
    | notFound => rfl
    | exited c =>
      cases c with
      | zero => exact absurd rfl (hp 0 rfl)
      | succ n => rfl
  refine ⟨hcheck, ?_, ?_, ?_, ?_, ?_, ?_, ?_⟩ <;>
    cases file? <;>
    simp [save_tags, save_tags_and_exit, remove_all_tags, hcheck,
      Invocation.mutating] <;>
    cases confirmed <;>
    simp [hcheck, Invocation.mutating]

/-- C6 witness: with the executable missing, the availability check fails
and a save, save-and-exit and remove-all launch no mutating subprocess. -/
theorem unavailable_blocks_mutations_witness :
    check_metaflac ProbeResult.notFound = false
    ∧ (save_tags (some "a.flac") ProbeResult.notFound emptyTagSet
        (fun _ => true) ["X=1"]).launched.all (fun i => !i.mutating) = true
    ∧ (save_tags (some "a.flac") ProbeResult.notFound emptyTagSet
        (fun _ => true) ["X=1"]).fileState = ["X=1"]
    ∧ (save_tags_and_exit (some "a.flac") ProbeResult.notFound emptyTagSet
        (fun _ => true) ["X=1"]).launched.all (fun i => !i.mutating) = true
    ∧ (save_tags_and_exit (some "a.flac") ProbeResult.notFound emptyTagSet
        (fun _ => true) ["X=1"]).fileState = ["X=1"]
    ∧ (remove_all_tags (some "a.flac") true ProbeResult.notFound emptyTagSet
        (fun _ => true) ["X=1"]).launched.all (fun i => !i.mutating) = true
    ∧ (remove_all_tags (some "a.flac") true ProbeResult.notFound emptyTagSet
        (fun _ => true) ["X=1"]).fileState = ["X=1"]
    ∧ (remove_all_tags (some "a.flac") true ProbeResult.notFound emptyTagSet
        (fun _ => true) ["X=1"]).tagSet = emptyTagSet :=
  unavailable_blocks_mutations (some "a.flac") ProbeResult.notFound emptyTagSet
    (fun _ => true) ["X=1"] true (fun c hc => by cases hc)

/-- C8: a confirmed remove-all whose single remove-all-tags invocation
succeeds resets the in-memory tag set to empty (all well-known fields
cleared, custom list emptied) and launches only the probe and the
remove-all-tags subprocess — in particular no export, so no automatic
re-read of the file. -/
theorem remove_all_success_resets_form (path : String) (probe : ProbeResult)
    (ts : TagSet) (succeeds : Invocation → Bool) (st : List String)
    (hk : ts.wellKnown.map Prod.fst = common_tags)
    (hprobe : check_metaflac probe = true)
    (hsucc : succeeds (Invocation.removeAllTags path) = true) :
    remove_all_tags (some path) true probe ts succeeds st
      = ⟨[Invocation.versionProbe, Invocation.removeAllTags path], [],
         emptyTagSet, .done⟩ := by
  have hclear : clear_form ts = emptyTagSet := by
    unfold clear_form emptyTagSet emptyWK
    apply TagSet.ext
    · show ts.wellKnown.map (fun p => (p.1, ""))
        = common_tags.map (fun t => (t, ""))
      rw [← hk, List.map_map]
      rfl
    · rfl
  show (if !true then (⟨[], st, ts, .cancelled⟩ : RemoveRun)
      else if check_metaflac probe then
        (if succeeds (Invocation.removeAllTags path) then
          ⟨[Invocation.versionProbe, Invocation.removeAllTags path], [],
           clear_form ts, .done⟩
        else
          ⟨[Invocation.versionProbe, Invocation.removeAllTags path], st, ts,
           .errored⟩)
      else ⟨[Invocation.versionProbe], st, ts, .unavailable⟩) = _
  rw [if_neg (by simp), if_pos hprobe, if_pos hsucc, hclear]

/-- C8 witness: a successful remove-all on a populated form resets it. -/
theorem remove_all_success_resets_form_witness :
    remove_all_tags (some "a.flac") true (ProbeResult.exited 0)
        ⟨setField emptyWK "TITLE" "Song", ["XCUSTOM=1"]⟩ (fun _ => true)
        ["TITLE=Song", "XCUSTOM=1"]
      = ⟨[Invocation.versionProbe, Invocation.removeAllTags "a.flac"], [],
         emptyTagSet, .done⟩ :=
  remove_all_success_resets_form "a.flac" (ProbeResult.exited 0)
    ⟨setField emptyWK "TITLE" "Song", ["XCUSTOM=1"]⟩ (fun _ => true)
    ["TITLE=Song", "XCUSTOM=1"] (by decide) rfl rfl

/-- C9: `load_tags` clears the form before launching the export subprocess,
so when that invocation fails the in-memory tag set is left empty (all
fields blank, no custom lines), not restored to its pre-load contents. -/
theorem load_failure_leaves_form_cleared (path : String) (probe : ProbeResult)
    (ts : TagSet) (hprobe : check_metaflac probe = true) :
    load_tags (some path) probe ts ExportOutcome.failure
      = (clear_form ts,
         [LoadEvent.probed, LoadEvent.clearedForm, LoadEvent.launchedExport,
          LoadEvent.showedError], OpOutcome.errored)
    ∧ (clear_form ts).custom = []
    ∧ (clear_form ts).wellKnown.all (fun p => p.2 == "") = true := by
  refine ⟨?_, rfl, ?_⟩
  · show (if check_metaflac probe then _ else _) = _
    rw [if_pos hprobe]
  · apply List.all_eq_true.mpr
    intro p hp
    rcases List.mem_map.mp hp with ⟨q, _, hqp⟩
    rw [← hqp]
    simp

/-- C9 witness: a failing export on a populated form leaves it empty. -/
theorem load_failure_leaves_form_cleared_witness :
    load_tags (some "a.flac") (ProbeResult.exited 0)
        ⟨setField emptyWK "TITLE" "Song", ["XCUSTOM=1"]⟩ ExportOutcome.failure
      = (clear_form ⟨setField emptyWK "TITLE" "Song", ["XCUSTOM=1"]⟩,
         [LoadEvent.probed, LoadEvent.clearedForm, LoadEvent.launchedExport,
          LoadEvent.showedError], OpOutcome.errored)
    ∧ (clear_form ⟨setField emptyWK "TITLE" "Song", ["XCUSTOM=1"]⟩).custom = []
    ∧ (clear_form ⟨setField emptyWK "TITLE" "Song", ["XCUSTOM=1"]⟩).wellKnown.all
        (fun p => p.2 == "") = true :=
  load_failure_leaves_form_cleared "a.flac" (ProbeResult.exited 0)
    ⟨setField emptyWK "TITLE" "Song", ["XCUSTOM=1"]⟩ rfl

/-- C7 counterexample: a rejected non-empty startup path makes the process
exit with status 1, but the error message goes to standard output (Python
`print`), not standard error as the claim states; and the empty-string
argument is a file argument whose path does not exist, yet Python's
`if args.file:` truthiness guard skips validation entirely and the window
opens with no file instead of exiting. -/
theorem startup_error_stream_counterexample :
    main_startup (some "song.mp3") (fun _ => true) id
      = StartupOutcome.exited 1 OutStream.stdout
          "Error: File 'song.mp3' does not exist or is not a FLAC file."
    ∧ OutStream.stdout ≠ OutStream.stderr
    ∧ main_startup (some "") (fun _ => false) id
      = StartupOutcome.windowOpened none := by
  refine ⟨by decide, by decide, by decide⟩

/-- C7 (amended): a non-empty startup file argument whose path does not
exist or does not end in the case-insensitive `.flac` extension makes the
process exit with status 1 and an error message on standard output before
any window opens; a non-empty path that exists with the extension is
accepted and made absolute; the empty-string argument is falsy under
`if args.file:` and is treated like no argument, opening the window with no
file. -/
theorem main_startup_some (f : String) (pathExists : String → Bool)
    (abspath : String → String) :
    main_startup (some f) pathExists abspath
      = if f = "" then StartupOutcome.windowOpened none
        else if pathExists f && pyEndsWith (pyLower f) ".flac" then
          StartupOutcome.windowOpened (some (abspath f))
        else StartupOutcome.exited 1 OutStream.stdout
          ("Error: File '" ++ f ++ "' does not exist or is not a FLAC file.") :=
  rfl

theorem startup_validation (f : String) (pathExists : String → Bool)
    (abspath : String → String) (hne : f ≠ "") :
    (pathExists f = false ∨ pyEndsWith (pyLower f) ".flac" = false →
      main_startup (some f) pathExists abspath
        = StartupOutcome.exited 1 OutStream.stdout
            ("Error: File '" ++ f ++ "' does not exist or is not a FLAC file."))
    ∧ (pathExists f = true → pyEndsWith (pyLower f) ".flac" = true →
      main_startup (some f) pathExists abspath
        = StartupOutcome.windowOpened (some (abspath f)))
    ∧ main_startup (some "") pathExists abspath
      = StartupOutcome.windowOpened none := by
  refine ⟨?_, ?_, ?_⟩
  · intro h
    rw [main_startup_some, if_neg hne]
    rcases h with h | h
    · rw [if_neg (by rw [h]; simp)]
    · rw [if_neg (by rw [h]; simp)]
  · intro h1 h2
    rw [main_startup_some, if_neg hne, if_pos (by rw [h1, h2]; rfl)]
  · rw [main_startup_some, if_pos rfl]

/-- C7 witness: a rejected and an accepted non-empty startup path, and the
empty-string argument opening the window with no file, at concrete
inputs. -/
theorem startup_validation_witness :
    main_startup (some "x.txt") (fun _ => true) id
      = StartupOutcome.exited 1 OutStream.stdout
          ("Error: File '" ++ "x.txt" ++ "' does not exist or is not a FLAC file.")
    ∧ main_startup (some "Song.FLAC") (fun _ => true)
        (fun s => "/music/" ++ s)
      = StartupOutcome.windowOpened (some ("/music/" ++ "Song.FLAC"))
    ∧ main_startup (some "") (fun _ => true) id
      = StartupOutcome.windowOpened none :=
  ⟨(startup_validation "x.txt" (fun _ => true) id (by decide)).1
      (Or.inr (by decide)),
   (startup_validation "Song.FLAC" (fun _ => true)
      (fun s => "/music/" ++ s) (by decide)).2.1 rfl (by decide),
   (startup_validation "x.txt" (fun _ => true) id (by decide)).2.2⟩

/-- C4: when the remove-all-tags step succeeds and the set-tag invocation
for `bad` fails after the ones for `pre` succeeded, Save launches nothing
past the failing invocation and no compensating invocation, surfaces an
error, and leaves the file with all prior tags removed and only the
successfully applied payloads `pre` written. -/
theorem save_partial_failure (path : String) (ts : TagSet)
    (probe : ProbeResult) (st : List String) (succeeds : Invocation → Bool)
    (pre rest : List String) (bad : String)
    (hplan : saveArgs ts = pre ++ bad :: rest)
    (hprobe : check_metaflac probe = true)
    (hremove : succeeds (Invocation.removeAllTags path) = true)
    (hpre : ∀ a ∈ pre, succeeds (Invocation.setTag path a) = true)
    (hbad : succeeds (Invocation.setTag path bad) = false) :
    save_tags (some path) probe ts succeeds st
      = ⟨Invocation.versionProbe :: Invocation.removeAllTags path ::
          (pre ++ [bad]).map (Invocation.setTag path),
         pre, .errored⟩ := by
  have hsplit : savePlan path ts
      = (Invocation.removeAllTags path :: pre.map (Invocation.setTag path))
        ++ Invocation.setTag path bad :: rest.map (Invocation.setTag path) := by
    unfold savePlan
    rw [hplan, List.map_append, List.map_cons, List.cons_append]
  have hpre2 : ∀ i ∈ Invocation.removeAllTags path
      :: pre.map (Invocation.setTag path), succeeds i = true := by
    intro i hi
    rcases List.mem_cons.mp hi with hi | hi
    · rw [hi]
      exact hremove
    · rcases List.mem_map.mp hi with ⟨a, ha, hai⟩
      rw [← hai]
      exact hpre a ha
  have hstate : applyInvs st (Invocation.removeAllTags path
      :: pre.map (Invocation.setTag path)) = pre := by
    unfold applyInvs
    rw [List.foldl_cons]
    have happ := applyInvs_setTags path pre (applyInv st (Invocation.removeAllTags path))
    unfold applyInvs at happ
    rw [happ]
    rfl
  show (if check_metaflac probe then _ else _) = _
  rw [if_pos hprobe, hsplit, execInvs_first_fail hpre2 hbad, hstate]
  have hlau : (Invocation.removeAllTags path :: pre.map (Invocation.setTag path))
      ++ [Invocation.setTag path bad]
      = Invocation.removeAllTags path
        :: (pre ++ [bad]).map (Invocation.setTag path) := by
    rw [List.cons_append, List.map_append]
    rfl
  rw [hlau]
  rfl

/-- C4 witness: saving the spec scenario tag set with a tool that fails on
the custom payload removes all tags, writes only `TITLE=Song`, stops, and
surfaces an error. -/
theorem save_partial_failure_witness :
    save_tags (some "a.flac") (ProbeResult.exited 0)
        ⟨setField emptyWK "TITLE" "Song", ["XCUSTOM=1"]⟩
        (fun i => !(i == Invocation.setTag "a.flac" "XCUSTOM=1"))
        ["OLD=tag"]
      = ⟨[Invocation.versionProbe, Invocation.removeAllTags "a.flac",
          Invocation.setTag "a.flac" "TITLE=Song",
          Invocation.setTag "a.flac" "XCUSTOM=1"],
         ["TITLE=Song"], .errored⟩ :=
  save_partial_failure "a.flac" ⟨setField emptyWK "TITLE" "Song", ["XCUSTOM=1"]⟩
    (ProbeResult.exited 0) ["OLD=tag"]
    (fun i => !(i == Invocation.setTag "a.flac" "XCUSTOM=1"))
    ["TITLE=Song"] [] "XCUSTOM=1" (by decide) rfl (by decide) (by decide)
    (by decide)

/-- C1 (amended): a save with an available tool and a selected file launches
exactly one remove-all-tags invocation, then one set-tag invocation per
well-known field whose value is non-empty after trimming whitespace (in the
fixed field order, with the trimmed value), then one set-tag invocation per
custom line that still contains an equals sign after trimming (in order,
with the trimmed line); nothing else is launched. -/
theorem save_invocation_sequence (path : String) (ts : TagSet)
    (probe : ProbeResult) (succeeds : Invocation → Bool) (st : List String)
    (_hk : ts.wellKnown.map Prod.fst = common_tags)
    (hnl : ∀ l ∈ ts.custom, '\n' ∉ l.data)
    (hprobe : check_metaflac probe = true)
    (hsucc : ∀ i, succeeds i = true) :
    (save_tags (some path) probe ts succeeds st).launched
      = Invocation.versionProbe :: Invocation.removeAllTags path ::
          ((ts.wellKnown.filter (fun p => pyStrip p.2 ≠ "")).map
              (fun p => Invocation.setTag path (p.1 ++ "=" ++ pyStrip p.2))
            ++ ((ts.custom.map pyStrip).filter containsEq).map
                (Invocation.setTag path))
    ∧ (save_tags (some path) probe ts succeeds st).outcome = .done := by
  rw [save_tags_success path probe ts succeeds st hprobe hsucc]
  refine ⟨?_, rfl⟩
  show Invocation.versionProbe :: savePlan path ts = _
  unfold savePlan saveArgs
  rw [wellKnownArgs_eq_filter, customArgs_eq_filter ts.custom hnl,
    List.map_append, List.map_map]
  rfl

/-- C1 witness: the spec scenario (TITLE set, ARTIST cleared, one custom
line) produces remove-all-tags, then set-tag TITLE=Song, then set-tag
XCUSTOM=1, in that order. -/
theorem save_invocation_sequence_witness :
    (save_tags (some "a.flac") (ProbeResult.exited 0)
        ⟨setField emptyWK "TITLE" "Song", ["XCUSTOM=1"]⟩
        (fun _ => true) []).launched
      = Invocation.versionProbe :: Invocation.removeAllTags "a.flac" ::
          ((((⟨setField emptyWK "TITLE" "Song", ["XCUSTOM=1"]⟩ :
              TagSet).wellKnown.filter (fun p => pyStrip p.2 ≠ "")).map
              (fun p => Invocation.setTag "a.flac" (p.1 ++ "=" ++ pyStrip p.2)))
            ++ ((["XCUSTOM=1"].map pyStrip).filter containsEq).map
                (Invocation.setTag "a.flac"))
    ∧ (save_tags (some "a.flac") (ProbeResult.exited 0)
        ⟨setField emptyWK "TITLE" "Song", ["XCUSTOM=1"]⟩
        (fun _ => true) []).outcome = .done :=
  save_invocation_sequence "a.flac" ⟨setField emptyWK "TITLE" "Song", ["XCUSTOM=1"]⟩
    (ProbeResult.exited 0) (fun _ => true) [] (by decide) (by decide) rfl
    (fun _ => rfl)

/-- C1 counterexample: the well-known field ARTIST holding the non-empty
value `" "` produces no set-tag invocation at all — the claim's "one
invocation per non-empty well-known field" fails for whitespace-only
values. -/
theorem save_whitespace_field_counterexample :
    getField (setField (setField emptyWK "TITLE" "Song") "ARTIST" " ")
        "ARTIST" = " "
    ∧ (" " : String) ≠ ""
    ∧ (save_tags (some "a.flac") (ProbeResult.exited 0)
        ⟨setField (setField emptyWK "TITLE" "Song") "ARTIST" " ", []⟩
        (fun _ => true) []).launched
      = [Invocation.versionProbe, Invocation.removeAllTags "a.flac",
         Invocation.setTag "a.flac" "TITLE=Song"] := by
  refine ⟨by decide, by decide, by decide⟩

theorem hasField_emptyWK_decide (k : String) :
    hasField emptyWK k = decide (k ∈ common_tags) := by
  by_cases h : k ∈ common_tags
  · rw [(hasField_emptyWK k).mpr h]
    simp [h]
  · rcases hh : hasField emptyWK k with _ | _
    · simp [h]
    · exact absurd ((hasField_emptyWK k).mp hh) h

/-- C2 counterexample: on the export text `"  TITLE=a"` the code first
strips the whole text and then parses, so TITLE is populated with `"a"`;
parsing the raw text line by line as the claim states would instead move
the line `"  TITLE=a"` (key `"  TITLE"`) into the custom list. -/
theorem load_pre_strip_counterexample :
    (load_parse_claimed "  TITLE=a" emptyWK).custom = ["  TITLE=a"]
    ∧ (load_parse "  TITLE=a" emptyWK).custom = []
    ∧ getField (load_parse "  TITLE=a" emptyWK).wellKnown "TITLE" = "a"
    ∧ load_parse "  TITLE=a" emptyWK ≠ load_parse_claimed "  TITLE=a" emptyWK := by
  refine ⟨by decide, by decide, by decide, by decide⟩

/-- C2 (amended): Load first strips leading and trailing whitespace from the
whole export text, then processes it line by line: the custom list receives,
in input order, exactly the unsplit lines that contain an equals sign and
whose key, uppercased, is not in the fixed well-known-field list; each
well-known field holds the value of the last line whose uppercased key
matches it (later duplicates overwrite earlier ones), and lines without an
equals sign are dropped. -/
theorem load_parse_line_by_line (s : String) :
    (load_parse s emptyWK).custom
      = (splitNl (pyStrip s)).filter
          (fun l => containsEq l && !(decide (upKeyOf l ∈ common_tags)))
    ∧ ∀ f ∈ common_tags,
        getField (load_parse s emptyWK).wellKnown f
          = ((lastMatchLine f (splitNl (pyStrip s))).map valOf).getD "" := by
  constructor
  · rw [load_parse_custom]
    apply List.filter_congr
    intro l _
    rw [hasField_emptyWK_decide]
  · intro f hf
    rw [load_parse_getField, if_pos ((hasField_emptyWK f).mpr hf),
      getField_emptyWK]

/-- C2 witness: the spec scenario export text loads TITLE and ARTIST into
the form and keeps `XCUSTOM=1` custom. -/
theorem load_parse_line_by_line_witness :
    ((load_parse "TITLE=Song\nARTIST=Band\nXCUSTOM=1" emptyWK).custom
      = (splitNl (pyStrip "TITLE=Song\nARTIST=Band\nXCUSTOM=1")).filter
          (fun l => containsEq l && !(decide (upKeyOf l ∈ common_tags)))
    ∧ ∀ f ∈ common_tags,
        getField (load_parse "TITLE=Song\nARTIST=Band\nXCUSTOM=1" emptyWK).wellKnown f
          = ((lastMatchLine f
              (splitNl (pyStrip "TITLE=Song\nARTIST=Band\nXCUSTOM=1"))).map
                valOf).getD "")
    ∧ (load_parse "TITLE=Song\nARTIST=Band\nXCUSTOM=1" emptyWK).custom
      = ["XCUSTOM=1"]
    ∧ getField (load_parse "TITLE=Song\nARTIST=Band\nXCUSTOM=1" emptyWK).wellKnown
        "TITLE" = "Song" :=
  ⟨load_parse_line_by_line "TITLE=Song\nARTIST=Band\nXCUSTOM=1",
   by decide, by decide⟩

theorem getField_map_keys (g : String → String) (ks : List String) (k : String) :
    getField (ks.map (fun f => (f, g f))) k = if k ∈ ks then g k else "" := by
  induction ks with
  | nil => simp [getField]
  | cons f0 kt ih =>
    rw [List.map_cons]
    unfold getField
    by_cases h0 : f0 = k
    · rw [List.find?_cons_of_pos _ (by simpa using h0)]
      rw [if_pos (by rw [h0]; exact List.mem_cons_self k kt)]
      simp [h0]
    · rw [List.find?_cons_of_neg _ (by simpa using h0)]
      unfold getField at ih
      rw [ih]
      by_cases hk : k ∈ kt
      · rw [if_pos hk, if_pos (List.mem_cons_of_mem f0 hk)]
      · rw [if_neg hk, if_neg (by
          intro hc
          rcases List.mem_cons.mp hc with hc | hc
          · exact h0 hc.symm
          · exact hk hc)]

theorem load_wellKnown_eq_map (s : String) :
    (load_parse s emptyWK).wellKnown
      = common_tags.map (fun f =>
          (f, ((lastMatchLine f (splitNl (pyStrip s))).map valOf).getD "")) := by
  have hkeys : (load_parse s emptyWK).wellKnown.map Prod.fst = common_tags := by
    rw [load_parse_keys, emptyWK_keys]
  apply assoc_ext
  · rw [hkeys, List.map_map]
    have hcomp : (Prod.fst ∘ fun f : String =>
        (f, ((lastMatchLine f (splitNl (pyStrip s))).map valOf).getD "")) = id := rfl
    rw [hcomp, List.map_id]
  · rw [hkeys]
    exact common_tags_nodup
  · intro k
    rw [getField_map_keys, load_parse_getField]
    by_cases hk : k ∈ common_tags
    · rw [if_pos ((hasField_emptyWK k).mpr hk), if_pos hk, getField_emptyWK]
    · rw [if_neg (by
        intro hc
        exact hk ((hasField_emptyWK k).mp hc)), if_neg hk, getField_emptyWK]

theorem length_filter_not {α : Type} (p : α → Bool) (l : List α) :
    (l.filter (fun a => !p a)).length = l.length - (l.filter p).length := by
  induction l with
  | nil => rfl
  | cons a t ih =>
    rw [List.filter_cons, List.filter_cons]
    have hle := List.length_filter_le p t
    rcases hp : p a with _ | _
    · rw [if_pos (show (!false) = true from rfl),
        if_neg (show ¬(false = true) from by simp)]
      rw [List.length_cons, ih, List.length_cons, Nat.succ_sub hle]
    · rw [if_neg (show ¬(!true) = true from by simp),
        if_pos (show (true = true) from rfl)]
      rw [ih, List.length_cons, List.length_cons, Nat.succ_sub_succ]

/-- C5 counterexample: the export text `"TITLE=a\nTITLE=b"` has N = 2
`KEY=VALUE` lines of which K = 2 match the well-known list, yet only one
well-known field ends up populated (the later duplicate overwrote the
earlier one), not K = 2. -/
theorem load_duplicate_keys_counterexample :
    (splitNl (pyStrip "TITLE=a\nTITLE=b")).length = 2
    ∧ ((splitNl (pyStrip "TITLE=a\nTITLE=b")).filter
        (fun l => containsEq l && hasField emptyWK (upKeyOf l))).length = 2
    ∧ (load_parse "TITLE=a\nTITLE=b" emptyWK).custom = []
    ∧ ((load_parse "TITLE=a\nTITLE=b" emptyWK).wellKnown.filter
        (fun p => p.2 ≠ "")).length = 1
    ∧ (1 : Nat) ≠ 2 := by
  refine ⟨by decide, by decide, by decide, by decide, by decide⟩

/-- C5 (amended): for an export text all of whose (post-strip) lines contain
an equals sign, the custom list consists of exactly the non-matching lines
in input order (so N − K custom lines, K counting matching lines), each
well-known field holds the last matching line's value (later duplicates
overwrite earlier ones), and the number of populated (non-empty) well-known
fields equals the number of distinct well-known keys whose last matching
value is non-empty — which is K exactly when the K matching lines have
distinct keys and non-empty values. -/
theorem load_counts (s : String)
    (hlines : ∀ l ∈ splitNl (pyStrip s), containsEq l = true) :
    (load_parse s emptyWK).custom
      = (splitNl (pyStrip s)).filter (fun l => !hasField emptyWK (upKeyOf l))
    ∧ (load_parse s emptyWK).custom.length
      = (splitNl (pyStrip s)).length
        - ((splitNl (pyStrip s)).filter
            (fun l => hasField emptyWK (upKeyOf l))).length
    ∧ ((load_parse s emptyWK).wellKnown.filter (fun p => p.2 ≠ "")).length
      = (common_tags.filter (fun f =>
          ((lastMatchLine f (splitNl (pyStrip s))).map valOf).getD "" ≠ "")).length
    ∧ ∀ f ∈ common_tags,
        getField (load_parse s emptyWK).wellKnown f
          = ((lastMatchLine f (splitNl (pyStrip s))).map valOf).getD "" := by
  have hcustom : (load_parse s emptyWK).custom
      = (splitNl (pyStrip s)).filter (fun l => !hasField emptyWK (upKeyOf l)) := by
    rw [load_parse_custom]
    apply List.filter_congr
    intro l hl
    rw [hlines l hl]
    rfl
  refine ⟨hcustom, ?_, ?_, ?_⟩
  · rw [hcustom, length_filter_not]
  · rw [load_wellKnown_eq_map, List.filter_map, List.length_map]
    rfl
  · intro f hf
    rw [load_parse_getField, if_pos ((hasField_emptyWK f).mpr hf),
      getField_emptyWK]

/-- C5 witness: a two-line export with one matching and one custom line. -/
theorem load_counts_witness :
    ((load_parse "TITLE=a\nFOO=1" emptyWK).custom
      = (splitNl (pyStrip "TITLE=a\nFOO=1")).filter
          (fun l => !hasField emptyWK (upKeyOf l))
    ∧ (load_parse "TITLE=a\nFOO=1" emptyWK).custom.length
      = (splitNl (pyStrip "TITLE=a\nFOO=1")).length
        - ((splitNl (pyStrip "TITLE=a\nFOO=1")).filter
            (fun l => hasField emptyWK (upKeyOf l))).length
    ∧ ((load_parse "TITLE=a\nFOO=1" emptyWK).wellKnown.filter
        (fun p => p.2 ≠ "")).length
      = (common_tags.filter (fun f =>
          ((lastMatchLine f (splitNl (pyStrip "TITLE=a\nFOO=1"))).map
            valOf).getD "" ≠ "")).length
    ∧ ∀ f ∈ common_tags,
        getField (load_parse "TITLE=a\nFOO=1" emptyWK).wellKnown f
          = ((lastMatchLine f (splitNl (pyStrip "TITLE=a\nFOO=1"))).map
              valOf).getD "")
    ∧ (load_parse "TITLE=a\nFOO=1" emptyWK).custom = ["FOO=1"] :=
  ⟨load_counts "TITLE=a\nFOO=1" (by decide), by decide⟩

/-- C10: Save trims leading and trailing whitespace from every well-known
field value; a field whose value strips to empty (whitespace-only included)
produces no set-tag invocation whose key is that field, and a field whose
value strips to something non-empty is written as its trimmed form and
reloads as its trimmed form. -/
theorem save_trims_values (path : String) (ts : TagSet) (probe : ProbeResult)
    (succeeds : Invocation → Bool) (st : List String) (f v : String)
    (hk : ts.wellKnown.map Prod.fst = common_tags)
    (hmem : (f, v) ∈ ts.wellKnown)
    (hvnl : ∀ p ∈ ts.wellKnown, '\n' ∉ p.2.data)
    (hcnl : ∀ l ∈ ts.custom, '\n' ∉ l.data)
    (hcust : ∀ l ∈ ts.custom, upKeyOf (pyStrip l) ≠ f)
    (hprobe : check_metaflac probe = true)
    (hsucc : ∀ i, succeeds i = true) :
    (pyStrip v = "" →
      ∀ a, Invocation.setTag path a ∈
          (save_tags (some path) probe ts succeeds st).launched → keyOf a ≠ f)
    ∧ (pyStrip v ≠ "" →
        Invocation.setTag path (f ++ "=" ++ pyStrip v)
          ∈ (save_tags (some path) probe ts succeeds st).launched
        ∧ getField (load_parse (exportText
            (save_tags (some path) probe ts succeeds st).fileState)
            emptyWK).wellKnown f = pyStrip v) := by
  have hnd : (ts.wellKnown.map Prod.fst).Nodup := by
    rw [hk]
    exact common_tags_nodup
  have hf : f ∈ common_tags := by
    rw [← hk]
    exact List.mem_map.mpr ⟨(f, v), hmem, rfl⟩
  have hgf : getField ts.wellKnown f = v := getField_of_mem_nodup hnd hmem
  rw [save_tags_success path probe ts succeeds st hprobe hsucc]
  constructor
  · intro hempty a ha
    have ha2 : a ∈ saveArgs ts := by
      rcases List.mem_cons.mp ha with h | h
      · simp at h
      · rcases List.mem_cons.mp h with h | h
        · simp at h
        · rcases List.mem_map.mp h with ⟨b, hb, hba⟩
          injection hba with _ hba2
          rw [← hba2]
          exact hb
    rcases List.mem_append.mp ha2 with h | h
    · rcases mem_wellKnownArgs h with ⟨q, hq, hqne, hqa⟩
      have hq1 : q.1 ∈ common_tags := by
        rw [← hk]
        exact List.mem_map.mpr ⟨q, hq, rfl⟩
      have hkeyq : keyOf a = q.1 := by
        rw [hqa]
        exact keyOf_arg (common_tags_wf q.1 hq1).2.1 _
      rw [hkeyq]
      intro hqf
      have hq2 : getField ts.wellKnown f = q.2 := by
        rw [← hqf]
        exact getField_of_mem_nodup hnd
          (by rw [show (q.1, q.2) = q from rfl]; exact hq)
      apply hqne
      rw [← hq2, hgf, hempty]
    · rcases clean_customArg hcnl h with ⟨_, _, _, _, l, hl, hal⟩
      intro hkf
      apply hcust l hl
      rw [← hal]
      unfold upKeyOf
      rw [hkf]
      exact (common_tags_wf f hf).2.2.2.1
  · intro hne
    constructor
    · show Invocation.setTag path (f ++ "=" ++ pyStrip v)
        ∈ Invocation.versionProbe :: Invocation.removeAllTags path ::
          (saveArgs ts).map (Invocation.setTag path)
      apply List.mem_cons_of_mem
      apply List.mem_cons_of_mem
      apply List.mem_map.mpr
      refine ⟨f ++ "=" ++ pyStrip v, ?_, rfl⟩
      apply List.mem_append.mpr
      left
      exact mem_wellKnownArgs_of hmem hne
    · have hclean : ∀ a ∈ customArgs ts.custom,
          a.data ≠ [] ∧ stripL a.data = a.data ∧ '\n' ∉ a.data := by
        intro a ha
        rcases clean_customArg hcnl ha with ⟨h1, h2, h3, _, _⟩
        exact ⟨h1, h2, h3⟩
      have hcust2 : ∀ l ∈ customArgs ts.custom, upKeyOf l ≠ f := by
        intro l hl
        rcases clean_customArg hcnl hl with ⟨_, _, _, _, l0, hl0, hal⟩
        rw [hal]
        exact hcust l0 hl0
      have hre := reload_getField hk hvnl hclean hf hcust2
      rw [hgf] at hre
      show getField (load_parse (exportText (saveArgs ts)) emptyWK).wellKnown f
        = pyStrip v
      rw [show exportText (saveArgs ts)
          = joinNl (wellKnownArgs ts.wellKnown ++ customArgs ts.custom) from rfl]
      rw [hre, if_neg hne]

/-- C10 witness: ARTIST holding `"  Band  "` is written as `ARTIST=Band`
and reloads as `"Band"`; the same tag set's reloaded ARTIST value follows
the theorem. -/
theorem save_trims_values_witness :
    ((pyStrip "  Band  " = "" →
      ∀ a, Invocation.setTag "a.flac" a ∈
          (save_tags (some "a.flac") (ProbeResult.exited 0)
            ⟨setField emptyWK "ARTIST" "  Band  ", ["foo=bar"]⟩
            (fun _ => true) []).launched → keyOf a ≠ "ARTIST")
    ∧ (pyStrip "  Band  " ≠ "" →
        Invocation.setTag "a.flac" ("ARTIST" ++ "=" ++ pyStrip "  Band  ")
          ∈ (save_tags (some "a.flac") (ProbeResult.exited 0)
              ⟨setField emptyWK "ARTIST" "  Band  ", ["foo=bar"]⟩
              (fun _ => true) []).launched
        ∧ getField (load_parse (exportText
            (save_tags (some "a.flac") (ProbeResult.exited 0)
              ⟨setField emptyWK "ARTIST" "  Band  ", ["foo=bar"]⟩
              (fun _ => true) []).fileState)
            emptyWK).wellKnown "ARTIST" = pyStrip "  Band  "))
    ∧ pyStrip "  Band  " = "Band" :=
  ⟨save_trims_values "a.flac"
      ⟨setField emptyWK "ARTIST" "  Band  ", ["foo=bar"]⟩
      (ProbeResult.exited 0) (fun _ => true) [] "ARTIST" "  Band  "
      (by decide) (by decide) (by decide) (by decide) (by decide) rfl
      (fun _ => rfl),
   by decide⟩

theorem round_trip_core (ts : TagSet)
    (hk : ts.wellKnown.map Prod.fst = common_tags)
    (hvnl : ∀ p ∈ ts.wellKnown, '\n' ∉ p.2.data)
    (hcfacts : ∀ l ∈ ts.custom, containsEq l = true
      ∧ hasField emptyWK (upKeyOf l) = false ∧ '\n' ∉ l.data)
    (htrimW : ∀ p ∈ ts.wellKnown, pyStrip p.2 = p.2)
    (htrimC : ∀ l ∈ ts.custom, pyStrip l = l) :
    load_parse (joinNl (saveArgs ts)) emptyWK = ts := by
  have hca : customArgs ts.custom = ts.custom :=
    customArgs_of_clean ts.custom
      (fun l hl => ⟨(hcfacts l hl).2.2, htrimC l hl, (hcfacts l hl).1⟩)
  have hargs : saveArgs ts = wellKnownArgs ts.wellKnown ++ ts.custom := by
    unfold saveArgs
    rw [hca]
  have hcustclean : ∀ a ∈ ts.custom,
      a.data ≠ [] ∧ stripL a.data = a.data ∧ '\n' ∉ a.data := by
    intro a ha
    refine ⟨?_, congrArg String.data (htrimC a ha), (hcfacts a ha).2.2⟩
    have hcq := (hcfacts a ha).1
    unfold containsEq at hcq
    exact containsEqL_ne_nil hcq
  apply TagSet.ext
  · have hrk : (load_parse (joinNl (saveArgs ts)) emptyWK).wellKnown.map
        Prod.fst = common_tags := by
      rw [load_parse_keys, emptyWK_keys]
    apply assoc_ext
    · rw [hrk, hk]
    · rw [hrk]
      exact common_tags_nodup
    · intro f
      by_cases hf : f ∈ common_tags
      · have hcust2 : ∀ l ∈ ts.custom, upKeyOf l ≠ f := by
          intro l hl hlf
          have h2 := (hcfacts l hl).2.1
          rw [hlf, (hasField_emptyWK f).mpr hf] at h2
          cases h2
        have hre := reload_getField hk hvnl hcustclean hf hcust2
        rw [hargs, hre]
        have hgmem : hasField ts.wellKnown f = true := by
          rw [hasField_true_iff, hk]
          exact hf
        have htr : pyStrip (getField ts.wellKnown f) = getField ts.wellKnown f :=
          htrimW (f, getField ts.wellKnown f) (getField_mem hgmem)
        rw [htr]
        by_cases hgf : getField ts.wellKnown f = ""
        · rw [if_pos hgf, hgf]
        · rw [if_neg hgf]
      · have h1 : hasField emptyWK f = false := by
          rcases h : hasField emptyWK f with _ | _
          · rfl
          · exact absurd ((hasField_emptyWK f).mp h) hf
        rw [load_parse_getField, if_neg (by rw [h1]; simp), getField_emptyWK]
        have h2 : hasField ts.wellKnown f = false := by
          rcases h : hasField ts.wellKnown f with _ | _
          · rfl
          · exact absurd (by
              have := (hasField_true_iff ts.wellKnown f).mp h
              rw [hk] at this
              exact this) hf
        rw [getField_of_not_has h2]
  · rw [hargs]
    exact reload_custom hk hvnl hcustclean
      (fun l hl => ⟨(hcfacts l hl).1, (hcfacts l hl).2.1⟩)

/-- C3 counterexample: the export text `"TITLE= Song "` loads TITLE as
`" Song"`, a non-empty field; saving that tag set and loading again yields
TITLE = `"Song"`, not `" Song"` — so the reloaded tag set does not equal the
one passed to Save even restricted to non-empty fields (Save trimmed the
value). -/
theorem round_trip_counterexample :
    getField (load_parse "TITLE= Song " emptyWK).wellKnown "TITLE" = " Song"
    ∧ (" Song" : String) ≠ ""
    ∧ (save_tags (some "a.flac") (ProbeResult.exited 0)
        (load_parse "TITLE= Song " emptyWK) (fun _ => true) []).fileState
      = ["TITLE=Song"]
    ∧ getField (load_parse (exportText (save_tags (some "a.flac")
        (ProbeResult.exited 0) (load_parse "TITLE= Song " emptyWK)
        (fun _ => true) []).fileState) emptyWK).wellKnown "TITLE" = "Song"
    ∧ load_parse (exportText (save_tags (some "a.flac")
        (ProbeResult.exited 0) (load_parse "TITLE= Song " emptyWK)
        (fun _ => true) []).fileState) emptyWK
      ≠ load_parse "TITLE= Song " emptyWK := by
  refine ⟨by decide, by decide, by decide, by decide, by decide⟩

/-- C3 (amended): for every file whose loaded TagSet has all well-known
values and custom lines unchanged by whitespace-trimming, Save with that
TagSet succeeds and a second Load yields exactly that TagSet (empty
well-known fields and malformed custom lines do not reappear); in general
values and custom lines come back whitespace-trimmed. -/
theorem save_load_round_trip (s0 path : String) (probe : ProbeResult)
    (succeeds : Invocation → Bool) (st : List String)
    (hprobe : check_metaflac probe = true) (hsucc : ∀ i, succeeds i = true)
    (htrimW : ∀ p ∈ (load_parse s0 emptyWK).wellKnown, pyStrip p.2 = p.2)
    (htrimC : ∀ l ∈ (load_parse s0 emptyWK).custom, pyStrip l = l) :
    (save_tags (some path) probe (load_parse s0 emptyWK) succeeds st).outcome
      = .done
    ∧ load_parse (exportText (save_tags (some path) probe
        (load_parse s0 emptyWK) succeeds st).fileState) emptyWK
      = load_parse s0 emptyWK := by
  rw [save_tags_success path probe (load_parse s0 emptyWK) succeeds st hprobe
    hsucc]
  refine ⟨rfl, ?_⟩
  show load_parse (exportText (saveArgs (load_parse s0 emptyWK))) emptyWK = _
  rw [show exportText (saveArgs (load_parse s0 emptyWK))
      = joinNl (saveArgs (load_parse s0 emptyWK)) from rfl]
  apply round_trip_core
  · rw [load_parse_keys, emptyWK_keys]
  · exact load_values_no_nl s0
  · exact load_custom_facts s0
  · exact htrimW
  · exact htrimC

/-- C3 witness: the trim-invariant export text
`"TITLE=Song\nXCUSTOM=1"` loads, saves and reloads to the identical tag
set. -/
theorem save_load_round_trip_witness :
    ((save_tags (some "a.flac") (ProbeResult.exited 0)
        (load_parse "TITLE=Song\nXCUSTOM=1" emptyWK) (fun _ => true)
        ["OLD=1"]).outcome = .done
    ∧ load_parse (exportText (save_tags (some "a.flac") (ProbeResult.exited 0)
        (load_parse "TITLE=Song\nXCUSTOM=1" emptyWK) (fun _ => true)
        ["OLD=1"]).fileState) emptyWK
      = load_parse "TITLE=Song\nXCUSTOM=1" emptyWK)
    ∧ (load_parse "TITLE=Song\nXCUSTOM=1" emptyWK).custom = ["XCUSTOM=1"] :=
  ⟨save_load_round_trip "TITLE=Song\nXCUSTOM=1" "a.flac"
      (ProbeResult.exited 0) (fun _ => true) ["OLD=1"] rfl (fun _ => rfl)
      (by decide) (by decide),
   by decide⟩

end MetaflacGui

